import Mathlib

/-!
Verification of the agent decision and synchronization engine of a grid
survival game.  The Lean definitions below are a shallow embedding of the
Python sources: Python dictionaries become association lists, floats become
rationals (or reals where square roots occur), and the few loops whose
termination Python does not guarantee syntactically take an explicit fuel
argument.  Randomness (only reached on branches the theorems below do not
depend on) is modelled by oracle parameters.
-/

namespace GameProof

/-! Association lists model Python dictionaries: lookup finds the first
binding, update replaces in place or appends a fresh binding at the end. -/

def alookup {K V : Type} [DecidableEq K] : List (K × V) → K → Option V
  | [], _ => none
  | kv :: l, k => if kv.1 = k then some kv.2 else alookup l k

def aset {K V : Type} [DecidableEq K] : List (K × V) → K → V → List (K × V)
  | [], k, v => [(k, v)]
  | kv :: l, k, v => if kv.1 = k then (k, v) :: l else kv :: aset l k v

theorem alookup_aset_self {K V : Type} [DecidableEq K] (l : List (K × V)) (k : K) (v : V) :
    alookup (aset l k v) k = some v := by
  induction l with
  | nil => simp [aset, alookup]
  | cons kv l ih =>
    by_cases h : kv.1 = k
    · simp [aset, h, alookup]
    · simp [aset, h, alookup, ih]

theorem alookup_aset_ne {K V : Type} [DecidableEq K] (l : List (K × V)) (k k' : K) (v : V)
    (h : k ≠ k') : alookup (aset l k v) k' = alookup l k' := by
  induction l with
  | nil => simp [aset, alookup, h]
  | cons kv l ih =>
    by_cases hk : kv.1 = k
    · simp [aset, hk, alookup, h, hk.symm ▸ h]
    · by_cases hk' : kv.1 = k'
      · simp [aset, hk, alookup, hk', (hk' ▸ hk : ¬ k' = k)]
      · simp [aset, hk, alookup, hk', ih]

theorem alookup_aset {K V : Type} [DecidableEq K] (l : List (K × V)) (k k' : K) (v : V) :
    alookup (aset l k v) k' = if k = k' then some v else alookup l k' := by
  by_cases h : k = k'
  · subst h; simp [alookup_aset_self]
  · simp [h, alookup_aset_ne l k k' v h]

/-! ## Economy system (src/game/systems/economy.py)

Agents are records; the single Agent structure below carries the fields of
BaseAgent together with the dynamic attributes the FSM states attach to it
(modelled as Option fields, where none stands for an absent attribute) and
the extra fields of NetworkedAgent.  Inventory is a string-keyed dictionary
of integer counts. -/

inductive ResourceType
  | SCRAP
  | FOOD
  | AMMO
deriving DecidableEq, Repr

def ResourceType.value : ResourceType → String
  | .SCRAP => "scrap"
  | .FOOD => "food"
  | .AMMO => "ammo"

inductive UpgradeType
  | WEAPON_DMG
  | MAX_HEALTH
  | SPEED
deriving DecidableEq, Repr

structure Upgrade where
  name : String
  type : UpgradeType
  cost : ℤ
  value : ℚ
  level : ℤ := 1

structure Agent where
  id : ℤ := 0
  x : ℤ := 0
  y : ℤ := 0
  health : ℚ := 100
  max_health : ℚ := 100
  ammo : ℤ := 0
  inventory : List (String × ℤ) := []
  upgrades : List (UpgradeType × ℤ) := []
  path : List (ℤ × ℤ) := []
  path_index : ℕ := 0
  fight_repath_ticks : Option ℕ := none
  fight_target_pos : Option (ℤ × ℤ) := none
  pending_attack_target_id : Option ℤ := none
  flee_ticks : Option ℕ := none
  scavenge_ticks : Option ℕ := none
  scavenge_goal : Option (ℤ × ℤ × String) := none
  stuck_ticks : ℕ := 0
  pending_upgrade_type : Option String := none
deriving DecidableEq, Repr

/-- EconomySystem.collect_resource: adds the amount to the inventory count. -/
def collect_resource (agent : Agent) (resource : ResourceType) (amount : ℤ) : Agent :=
  let current := (alookup agent.inventory resource.value).getD 0
  { agent with inventory := aset agent.inventory resource.value (current + amount) }

/-- EconomySystem.consume_item: decrements the count when enough is held and
applies the effect (food heals up to 100, ammo adds to the ammo counter);
returns the updated agent and the success flag. -/
def consume_item (agent : Agent) (resource : ResourceType) (amount : ℤ) : Agent × Bool :=
  let current := (alookup agent.inventory resource.value).getD 0
  if current ≥ amount then
    let a1 := { agent with inventory := aset agent.inventory resource.value (current - amount) }
    let a2 :=
      match resource with
      | .FOOD => { a1 with health := min 100 (a1.health + (amount : ℚ) * 10) }
      | .AMMO => { a1 with ammo := a1.ammo + amount }
      | .SCRAP => a1
    (a2, true)
  else (agent, false)

/-- EconomySystem.purchase_upgrade: pays scrap, records the owned upgrade and
applies the stat buff; the source indexes inventory with the string scrap
directly after the affordability guard, which the getD 0 below mirrors. -/
def purchase_upgrade (agent : Agent) (upgrade : Upgrade) : Agent × Bool :=
  if (alookup agent.inventory "scrap").getD 0 ≥ upgrade.cost then
    let a1 := { agent with
      inventory := aset agent.inventory "scrap"
        ((alookup agent.inventory "scrap").getD 0 - upgrade.cost) }
    let a2 := { a1 with inventory := aset a1.inventory ("upgrade_" ++ upgrade.name) 1 }
    let a3 :=
      if upgrade.type = UpgradeType.MAX_HEALTH then
        { a2 with health := a2.health + upgrade.value }
      else a2
    (a3, true)
  else (agent, false)

/-- C10: when the inventory holds fewer than the requested amount of a
resource, consume_item reports failure and leaves the agent unchanged. -/
theorem C10_consume_item_insufficient_leaves_agent_unchanged
    (agent : Agent) (resource : ResourceType) (amount : ℤ)
    (h : (alookup agent.inventory resource.value).getD 0 < amount) :
    consume_item agent resource amount = (agent, false) := by
  simp only [consume_item]
  rw [if_neg (not_le.mpr h)]

/-- A concrete agent used by witnesses: one unit of food in the inventory. -/
def oneFoodAgent : Agent := { inventory := [("food", 1)] }

/-- Witness for C10 at a concrete agent holding 1 food but asked for 2. -/
theorem C10_witness :
    (alookup oneFoodAgent.inventory ResourceType.FOOD.value).getD 0 < 2 ∧
    consume_item oneFoodAgent ResourceType.FOOD 2 = (oneFoodAgent, false) := by
  refine ⟨by norm_num [alookup, ResourceType.value, oneFoodAgent], ?_⟩
  exact C10_consume_item_insufficient_leaves_agent_unchanged _ _ _
    (by norm_num [alookup, ResourceType.value, oneFoodAgent])

/-! ## Finite state machine controller (src/game/agents/fsm.py)

The states dictionary of FiniteStateMachine maps the five state names to
state objects; the enter and exit hooks of each state only mutate the agent,
so they are modelled as functions on the Agent record and the machine itself
only tracks the name of the current state. -/

def validStateNames : List String := ["FIGHT", "FLEE", "SCAVENGE", "EAT", "UPGRADE"]

/-- Enter hooks of the five states: FIGHT and FLEE reset the path and their
tick counters, the other states do nothing. -/
def stateEnter (name : String) (a : Agent) : Agent :=
  if name = "FIGHT" then
    { a with path := [], path_index := 0, fight_repath_ticks := some 0,
             fight_target_pos := none }
  else if name = "FLEE" then
    { a with path := [], path_index := 0, flee_ticks := some 0 }
  else a

/-- Exit hooks of the five states: FIGHT and FLEE reset the path and delete
their transient attributes, SCAVENGE deletes its transient attributes. -/
def stateExit (name : String) (a : Agent) : Agent :=
  if name = "FIGHT" then
    { a with path := [], path_index := 0, fight_repath_ticks := none,
             fight_target_pos := none, pending_attack_target_id := none }
  else if name = "FLEE" then
    { a with path := [], path_index := 0, flee_ticks := none }
  else if name = "SCAVENGE" then
    { a with scavenge_ticks := none, scavenge_goal := none }
  else a

structure FSM where
  current_state : Option String := none
deriving DecidableEq, Repr

/-- FiniteStateMachine.set_state: unknown names are logged and rejected with
no state change; otherwise the exit hook of the old state runs, the current
state is replaced, and the enter hook of the new state runs. -/
def set_state (fsm : FSM) (agent : Agent) (state_name : String) : FSM × Agent :=
  if state_name ∉ validStateNames then (fsm, agent)
  else
    let agent1 :=
      match fsm.current_state with
      | some c => stateExit c agent
      | none => agent
    ({ current_state := some state_name }, stateEnter state_name agent1)

/-- FiniteStateMachine.transition simply delegates to set_state. -/
def transition (fsm : FSM) (agent : Agent) (state_name : String) : FSM × Agent :=
  set_state fsm agent state_name

/-- C9: a state name that is not one of SCAVENGE, FIGHT, FLEE, EAT, UPGRADE
leaves the machine and the agent untouched, through set_state as well as
through transition: no exit or enter hook runs. -/
theorem C9_set_state_invalid_name_no_change
    (fsm : FSM) (agent : Agent) (state_name : String)
    (h : state_name ∉ validStateNames) :
    set_state fsm agent state_name = (fsm, agent) ∧
    transition fsm agent state_name = (fsm, agent) := by
  constructor
  · simp [set_state, h]
  · simp [transition, set_state, h]

/-- Witness for C9: the unknown name INVALID_STATE is rejected unchanged. -/
theorem C9_witness :
    "INVALID_STATE" ∉ validStateNames ∧
    set_state { current_state := some "SCAVENGE" } oneFoodAgent "INVALID_STATE" =
      ({ current_state := some "SCAVENGE" }, oneFoodAgent) := by
  have h : "INVALID_STATE" ∉ validStateNames := by decide
  exact ⟨h, (C9_set_state_invalid_name_no_change _ _ _ h).1⟩

/-! ## Reconciliation layer (src/game/agents/network_agent.py)

NetworkedAgent wraps the FSM controller; update_from_server overwrites the
local state with the authoritative snapshot, and update runs one FSM tick
and converts the local mutations into a single action packet.  The wrapped
FSM tick is opaque to this layer (the source calls self.fsm.update and then
only diffs the agent fields), so it is a function parameter here, as is the
name of the FSM state that is current after the tick.  Other agents arrive
as proxy records carrying id, position, health and ammo; the world argument
is the list of resource positions that get_resource_at would report. -/

structure ServerSelf where
  x : ℤ
  y : ℤ
  health : ℚ
  max_health : Option ℚ
  ammo : ℤ
  inventory : List (String × ℤ)
deriving DecidableEq, Repr

/-- NetworkedAgent.update_from_server: position, health, ammo and inventory
are overwritten from the snapshot (max_health only when present); then the
stuck counter and the path cursor bookkeeping run on the confirmed values. -/
def update_from_server (a0 : Agent) (server : ServerSelf) : Agent :=
  let old_pos := (a0.x, a0.y)
  let a := { a0 with
    x := server.x, y := server.y, health := server.health,
    max_health := server.max_health.getD a0.max_health,
    ammo := server.ammo, inventory := server.inventory }
  let a :=
    if (a.x, a.y) = old_pos then { a with stuck_ticks := a.stuck_ticks + 1 }
    else { a with stuck_ticks := 0 }
  let a :=
    if a.stuck_ticks ≥ 3 ∧ a.path ≠ [] then
      { a with path := [], path_index := 0, stuck_ticks := 0 }
    else a
  if a.path ≠ [] ∧ a.path_index < a.path.length then
    if a.path.getD a.path_index (0, 0) = (a.x, a.y) then
      { a with path_index := a.path_index + 1 }
    else if (a.x, a.y) ≠ old_pos then { a with path := [], path_index := 0 }
    else a
  else a

/-- C3: after update_from_server the position, health, ammo and inventory of
the agent are exactly the snapshot values, whatever locally predicted values
the agent held before the call. -/
theorem C3_server_snapshot_wins (a0 : Agent) (server : ServerSelf) :
    (update_from_server a0 server).x = server.x ∧
    (update_from_server a0 server).y = server.y ∧
    (update_from_server a0 server).health = server.health ∧
    (update_from_server a0 server).ammo = server.ammo ∧
    (update_from_server a0 server).inventory = server.inventory := by
  simp only [update_from_server]
  split_ifs <;> simp

structure Other where
  id : ℤ
  x : ℤ
  y : ℤ
  health : ℚ
  ammo : ℤ
deriving DecidableEq, Repr

/-- Leftmost element of minimal key.  The source sorts the rival list with
the stable Python sort keyed by Manhattan distance and takes element 0; the
first element of a stable sort is the leftmost minimum, which this fold
computes directly. -/
def nearestBy {α : Type} (key : α → ℤ) : List α → Option α
  | [] => none
  | x :: xs => some (xs.foldl (fun best o => if key o < key best then o else best) x)

structure ActionPacket where
  type : String
  agent_id : ℤ
  action : Option String
  position : Option (ℤ × ℤ)
  target_id : Option (Option ℤ) := none
  upgrade_type : Option String := none
deriving DecidableEq, Repr

/-- The rival list: every listed agent whose id differs from the given id. -/
def rivals (agentsList : List Other) (selfId : ℤ) : List Other :=
  agentsList.filter (fun o => o.id ≠ selfId)

theorem mem_rivals {agentsList : List Other} {selfId : ℤ} {o : Other} :
    o ∈ rivals agentsList selfId ↔ o ∈ agentsList ∧ o.id ≠ selfId := by
  simp [rivals, List.mem_filter]

/-- Attack detection (block 1 of NetworkedAgent.update): an ammo decrease
restores the local ammo and infers the target as the rival nearest in
Manhattan distance from the post-tick position. -/
def detect_attack (a : Agent) (old_ammo : ℤ) (agentsList : List Other) :
    Agent × Option String × Option ℤ :=
  if a.ammo < old_ammo then
    let a := { a with ammo := old_ammo }
    let others := rivals agentsList a.id
    let target_id : Option ℤ :=
      match nearestBy (fun o => |o.x - a.x| + |o.y - a.y|) others with
      | none => none
      | some o => some o.id
    (a, some "ATTACK", target_id)
  else (a, none, none)

/-- Move detection (block 2): a position change becomes a move intent and
the local position is rolled back to the pre-tick value. -/
def detect_move (a : Agent) (old_pos : ℤ × ℤ) : Agent × Option (ℤ × ℤ) :=
  if (a.x, a.y) ≠ old_pos then
    ({ a with x := old_pos.1, y := old_pos.2 }, some (a.x, a.y))
  else (a, none)

/-- State-tag derived intents (block 3), reached only when neither an attack
nor a move was inferred. -/
def state_based_action (a : Agent) (world : Option (List (ℤ × ℤ)))
    (current_state : String) : Agent × Option String :=
  if current_state = "FLEE" then
    if a.path = [] ∨ a.path_index ≥ a.path.length then
      ({ a with path := [], path_index := 0 }, none)
    else (a, none)
  else if current_state = "SCAVENGE" then
    match world with
    | some resourcePositions =>
        if (a.x, a.y) ∈ resourcePositions then (a, some "SCAVENGE") else (a, none)
    | none => (a, none)
  else if current_state = "EAT" then (a, some "EAT")
  else if current_state = "UPGRADE" then
    ({ a with pending_upgrade_type := some (a.pending_upgrade_type.getD "MAX_HEALTH") },
     some "UPGRADE")
  else (a, none)

/-- Path-following movement (block 4), reached when no other move or action
was produced and a path is active. -/
def path_movement (a : Agent) : Agent × Option (ℤ × ℤ) :=
  if a.path_index < a.path.length then
    let a :=
      if a.path.getD a.path_index (0, 0) = (a.x, a.y) then
        { a with path_index := a.path_index + 1 }
      else a
    if a.path_index < a.path.length then (a, some (a.path.getD a.path_index (0, 0)))
    else (a, none)
  else (a, none)

/-- NetworkedAgent.update: runs one FSM tick (the fsmTick parameter), diffs
the post-tick agent against the pre-tick snapshot, and always builds exactly
one action packet.  fsmStateName is the name of the current FSM state after
the tick (the source reads self.fsm.current_state.name, with None absent). -/
def networked_update (a0 : Agent) (agentsList : List Other)
    (world : Option (List (ℤ × ℤ))) (fsmTick : Agent → Agent)
    (fsmStateName : Option String) : Agent × ActionPacket :=
  let old_ammo := a0.ammo
  let old_pos := (a0.x, a0.y)
  let a := fsmTick a0
  let s1 := detect_attack a old_ammo agentsList
  let a := s1.1
  let action := s1.2.1
  let target_id := s1.2.2
  let s2 := detect_move a old_pos
  let a := s2.1
  let move_to := s2.2
  let current_state := fsmStateName.getD "None"
  let s3 :=
    if action = none ∧ move_to = none then state_based_action a world current_state
    else (a, action)
  let a := s3.1
  let action := s3.2
  let s4 :=
    if move_to = none ∧ action = none ∧ a.path ≠ [] then path_movement a
    else (a, move_to)
  let a := s4.1
  let move_to := s4.2
  let packet : ActionPacket :=
    { type := "action", agent_id := a.id, action := action, position := move_to }
  let packet :=
    if action = some "ATTACK" then { packet with target_id := some target_id }
    else if action = some "UPGRADE" then
      { packet with upgrade_type := some (a.pending_upgrade_type.getD "MAX_HEALTH") }
    else packet
  (a, packet)

theorem foldl_min_spec {α : Type} (key : α → ℤ) (xs : List α) (b : α) :
    (xs.foldl (fun best o => if key o < key best then o else best) b = b ∨
      xs.foldl (fun best o => if key o < key best then o else best) b ∈ xs) ∧
    key (xs.foldl (fun best o => if key o < key best then o else best) b) ≤ key b ∧
    ∀ o ∈ xs, key (xs.foldl (fun best o => if key o < key best then o else best) b) ≤ key o := by
  induction xs generalizing b with
  | nil => simp
  | cons x xs ih =>
    simp only [List.foldl_cons, List.mem_cons]
    by_cases h : key x < key b
    · rw [if_pos h]
      obtain ⟨hmem, hle, hall⟩ := ih x
      refine ⟨?_, ?_, ?_⟩
      · rcases hmem with h1 | h1
        · exact Or.inr (Or.inl h1)
        · exact Or.inr (Or.inr h1)
      · exact le_trans hle (le_of_lt h)
      · intro o ho
        rcases ho with rfl | ho
        · exact hle
        · exact hall o ho
    · rw [if_neg h]
      obtain ⟨hmem, hle, hall⟩ := ih b
      refine ⟨?_, ?_, ?_⟩
      · rcases hmem with h1 | h1
        · exact Or.inl h1
        · exact Or.inr (Or.inr h1)
      · exact hle
      · intro o ho
        rcases ho with rfl | ho
        · exact le_trans hle (not_lt.mp h)
        · exact hall o ho

theorem nearestBy_spec {α : Type} (key : α → ℤ) (l : List α) (o : α)
    (h : nearestBy key l = some o) : o ∈ l ∧ ∀ o' ∈ l, key o ≤ key o' := by
  cases l with
  | nil => simp [nearestBy] at h
  | cons x xs =>
    simp only [nearestBy, Option.some.injEq] at h
    obtain ⟨hmem, hle, hall⟩ := foldl_min_spec key xs x
    rw [h] at hmem hle hall
    constructor
    · rcases hmem with h1 | h1
      · rw [h1]; exact List.mem_cons_self x xs
      · exact List.mem_cons_of_mem x h1
    · intro o' ho'
      rcases List.mem_cons.mp ho' with rfl | ho'
      · exact hle
      · exact hall o' ho'

theorem nearestBy_ne_none {α : Type} (key : α → ℤ) (l : List α) (hl : l ≠ []) :
    ∃ o, nearestBy key l = some o := by
  cases l with
  | nil => exact absurd rfl hl
  | cons x xs => exact ⟨_, rfl⟩

theorem detect_attack_of_lt (a : Agent) (old_ammo : ℤ) (l : List Other)
    (h : a.ammo < old_ammo) :
    detect_attack a old_ammo l =
      ({ a with ammo := old_ammo }, some "ATTACK",
        match nearestBy (fun o => |o.x - a.x| + |o.y - a.y|) (rivals l a.id) with
        | none => none
        | some o => some o.id) := by
  simp only [detect_attack, if_pos h]

theorem detect_attack_of_ge (a : Agent) (old_ammo : ℤ) (l : List Other)
    (h : ¬ a.ammo < old_ammo) : detect_attack a old_ammo l = (a, none, none) := by
  simp only [detect_attack, if_neg h]

theorem detect_move_of_ne (a : Agent) (old_pos : ℤ × ℤ) (h : (a.x, a.y) ≠ old_pos) :
    detect_move a old_pos = ({ a with x := old_pos.1, y := old_pos.2 }, some (a.x, a.y)) := by
  simp [detect_move, h]

theorem detect_move_of_eq (a : Agent) (old_pos : ℤ × ℤ) (h : (a.x, a.y) = old_pos) :
    detect_move a old_pos = (a, none) := by
  simp [detect_move, h]

/-- C4: every call of NetworkedAgent.update yields exactly one action packet;
an ammo decrease over the FSM tick turns into an ATTACK packet whose target
is the rival nearest in Manhattan distance (every rival reported by the
server is living, which the hlive hypothesis records) with the local ammo
restored, and a position change turns into a move intent carrying the
post-tick position with the local position rolled back. -/
theorem C4_networked_update_one_packet_and_diff_rules
    (a0 : Agent) (agentsList : List Other) (world : Option (List (ℤ × ℤ)))
    (fsmTick : Agent → Agent) (fsmStateName : Option String)
    (hid : (fsmTick a0).id = a0.id)
    (hlive : ∀ o ∈ agentsList, o.id ≠ a0.id → 0 < o.health) :
    (networked_update a0 agentsList world fsmTick fsmStateName).2.type = "action" ∧
    ((fsmTick a0).ammo < a0.ammo →
      (networked_update a0 agentsList world fsmTick fsmStateName).2.action = some "ATTACK" ∧
      (networked_update a0 agentsList world fsmTick fsmStateName).1.ammo = a0.ammo ∧
      (rivals agentsList a0.id = [] →
        (networked_update a0 agentsList world fsmTick fsmStateName).2.target_id = some none) ∧
      (rivals agentsList a0.id ≠ [] →
        ∃ o, o ∈ agentsList ∧ o.id ≠ a0.id ∧ 0 < o.health ∧
          (networked_update a0 agentsList world fsmTick fsmStateName).2.target_id =
            some (some o.id) ∧
          ∀ o' ∈ agentsList, o'.id ≠ a0.id →
            |o.x - (fsmTick a0).x| + |o.y - (fsmTick a0).y| ≤
              |o'.x - (fsmTick a0).x| + |o'.y - (fsmTick a0).y|)) ∧
    (((fsmTick a0).x, (fsmTick a0).y) ≠ (a0.x, a0.y) →
      (networked_update a0 agentsList world fsmTick fsmStateName).2.position =
        some ((fsmTick a0).x, (fsmTick a0).y) ∧
      (networked_update a0 agentsList world fsmTick fsmStateName).1.x = a0.x ∧
      (networked_update a0 agentsList world fsmTick fsmStateName).1.y = a0.y) := by
  refine ⟨?_, ?_, ?_⟩
  · -- one packet, of wire type action, in every branch
    simp only [networked_update]
    split_ifs <;> simp
  · -- ammo decrease: ATTACK, restored ammo, nearest rival target
    intro hatk
    by_cases hmv : (((fsmTick a0).x, (fsmTick a0).y) : ℤ × ℤ) = (a0.x, a0.y)
    · simp only [networked_update, detect_attack_of_lt _ _ _ hatk]
      simp only [detect_move, hid]
      simp only [hmv]
      simp only [ne_eq, not_true_eq_false, if_false, reduceCtorEq, false_and, ite_false]
      refine ⟨by simp, by simp, ?_, ?_⟩
      · intro hfil
        simp [hfil, nearestBy]
      · intro hfil
        obtain ⟨o, ho⟩ := nearestBy_ne_none
          (fun o => |o.x - (fsmTick a0).x| + |o.y - (fsmTick a0).y|) _ hfil
        obtain ⟨homem, homin⟩ := nearestBy_spec _ _ _ ho
        rw [mem_rivals] at homem
        refine ⟨o, homem.1, homem.2, hlive o homem.1 homem.2, ?_, ?_⟩
        · simp [ho]
        · intro o' ho' hne
          exact homin o' (mem_rivals.mpr ⟨ho', hne⟩)
    · simp only [networked_update, detect_attack_of_lt _ _ _ hatk]
      simp only [detect_move, hid]
      simp only [ne_eq, hmv, not_false_eq_true, if_true, reduceCtorEq, false_and, ite_false]
      refine ⟨by simp, by simp, ?_, ?_⟩
      · intro hfil
        simp [hfil, nearestBy]
      · intro hfil
        obtain ⟨o, ho⟩ := nearestBy_ne_none
          (fun o => |o.x - (fsmTick a0).x| + |o.y - (fsmTick a0).y|) _ hfil
        obtain ⟨homem, homin⟩ := nearestBy_spec _ _ _ ho
        rw [mem_rivals] at homem
        refine ⟨o, homem.1, homem.2, hlive o homem.1 homem.2, ?_, ?_⟩
        · simp [ho]
        · intro o' ho' hne
          exact homin o' (mem_rivals.mpr ⟨ho', hne⟩)
  · -- position change: move intent and rollback
    intro hmv
    by_cases hatk : (fsmTick a0).ammo < a0.ammo
    · simp only [networked_update, detect_attack_of_lt _ _ _ hatk]
      simp only [detect_move]
      simp only [ne_eq, hmv, not_false_eq_true, if_true, reduceCtorEq, false_and, ite_false]
      refine ⟨?_, by simp, by simp⟩
      trivial
    · simp only [networked_update, detect_attack_of_ge _ _ _ hatk]
      simp only [detect_move]
      simp only [ne_eq, hmv, not_false_eq_true, if_true, reduceCtorEq, false_and, ite_false]
      refine ⟨?_, by simp, by simp⟩
      trivial

/-- Concrete data for the C4 witness. -/
def c4Agent : Agent := { id := 1, ammo := 5 }

/-- A tick that only spends one ammo, as an FSM attack does. -/
def c4Tick (a : Agent) : Agent := { a with ammo := a.ammo - 1 }

def c4Rival : Other := { id := 2, x := 3, y := 0, health := 10, ammo := 0 }

/-- Witness for C4: a tick that spends one ammo against one living rival. -/
theorem C4_witness :
    (c4Tick c4Agent).id = c4Agent.id ∧
    (∀ o ∈ [c4Rival], o.id ≠ c4Agent.id → 0 < o.health) ∧
    (networked_update c4Agent [c4Rival] none c4Tick (some "FIGHT")).2.type = "action" ∧
    ((c4Tick c4Agent).ammo < c4Agent.ammo →
      (networked_update c4Agent [c4Rival] none c4Tick (some "FIGHT")).2.action =
        some "ATTACK" ∧
      (networked_update c4Agent [c4Rival] none c4Tick (some "FIGHT")).1.ammo =
        c4Agent.ammo) := by
  have hlive : ∀ o ∈ [c4Rival], o.id ≠ c4Agent.id → 0 < o.health := by
    intro o ho hne
    rw [List.mem_singleton] at ho
    rw [ho]
    norm_num [c4Rival]
  have h := C4_networked_update_one_packet_and_diff_rules c4Agent [c4Rival] none c4Tick
    (some "FIGHT") (by simp [c4Tick]) hlive
  exact ⟨by simp [c4Tick], hlive, h.1, fun ha => ⟨(h.2.1 ha).1, (h.2.1 ha).2.1⟩⟩

/-! ## Fuzzy logic (src/game/agents/fuzzy.py)

Inputs are extended reals so that the infinite float inputs the spec calls
out are covered: an infinite input falls into the first branch of the
triangular membership function exactly as float infinity does in Python,
and the interior branches see a finite value. -/

structure TriangularSet where
  low : ℝ
  peak : ℝ
  high : ℝ

/-- TriangularSet.membership with the branch structure of the source: zero
outside the support, one at the peak (and on a degenerate shoulder), linear
interpolation on both slopes. -/
noncomputable def TriangularSet.membership (s : TriangularSet) (x : EReal) : ℝ :=
  if x ≤ (s.low : EReal) ∨ x ≥ (s.high : EReal) then 0
  else if x = (s.peak : EReal) then 1
  else if x < (s.peak : EReal) then
    if s.peak = s.low then 1
    else (x.toReal - s.low) / (s.peak - s.low)
  else
    if s.high = s.peak then 1
    else (s.high - x.toReal) / (s.high - s.peak)

theorem EReal.toReal_bounds {a b : ℝ} {x : EReal} (ha : (a : EReal) < x)
    (hb : x < (b : EReal)) : a < x.toReal ∧ x.toReal < b := by
  induction x using EReal.rec with
  | h_bot => exact absurd ha (by simp)
  | h_real r =>
      rw [EReal.coe_lt_coe_iff] at ha hb
      simpa using ⟨ha, hb⟩
  | h_top => exact absurd hb (by simp)

/-- Each membership degree lies in the unit interval, for any set shape and
any extended-real input. -/
theorem membership_mem_unit (s : TriangularSet) (x : EReal) :
    0 ≤ s.membership x ∧ s.membership x ≤ 1 := by
  unfold TriangularSet.membership
  split_ifs with h1 h2 h3 h4 h5
  · norm_num
  · norm_num
  · norm_num
  · -- rising slope: low < x < peak, finite after conversion
    push_neg at h1
    obtain ⟨hlow, hhigh⟩ := h1
    obtain ⟨ha, hb⟩ := EReal.toReal_bounds hlow h3
    constructor
    · apply div_nonneg <;> linarith
    · rw [div_le_one (by linarith)]
      linarith
  · norm_num
  · -- falling slope: peak < x < high, finite after conversion
    push_neg at h1
    obtain ⟨hlow, hhigh⟩ := h1
    have hpeak : (s.peak : EReal) < x := lt_of_le_of_ne (not_lt.mp h3) (Ne.symm h2)
    obtain ⟨ha, hb⟩ := EReal.toReal_bounds hpeak hhigh
    constructor
    · apply div_nonneg <;> linarith
    · rw [div_le_one (by linarith)]
      linarith

/-- The six linguistic sets installed by the FuzzyLogic constructor. -/
def healthLOW : TriangularSet := ⟨-1, 0, 50⟩

def healthMEDIUM : TriangularSet := ⟨25, 50, 75⟩

def healthHIGH : TriangularSet := ⟨50, 100, 101⟩

def ammoLOW : TriangularSet := ⟨-1, 0, 5⟩

def ammoMEDIUM : TriangularSet := ⟨2, 5, 10⟩

def ammoHIGH : TriangularSet := ⟨5, 20, 21⟩

/-- FuzzyLogic.evaluate_confidence: fuzzify both inputs, fire the three
rules, and defuzzify by the strength-weighted average of 0.9, 0.5 and 0.2,
with 0 when every rule strength is 0. -/
noncomputable def evaluate_confidence (health_val ammo_val : EReal) : ℝ :=
  let rule1_strength := min (healthHIGH.membership health_val) (ammoHIGH.membership ammo_val)
  let rule2_strength :=
    min (healthMEDIUM.membership health_val) (ammoMEDIUM.membership ammo_val)
  let rule3_strength := max (healthLOW.membership health_val) (ammoLOW.membership ammo_val)
  let numerator := rule1_strength * 0.9 + rule2_strength * 0.5 + rule3_strength * 0.2
  let denominator := rule1_strength + rule2_strength + rule3_strength
  if denominator = 0 then 0 else numerator / denominator

/-- C7: for every pair of extended-real inputs, including values outside the
nominal ranges and infinite values, the confidence lies in the closed unit
interval. -/
theorem C7_confidence_clamped (health_val ammo_val : EReal) :
    0 ≤ evaluate_confidence health_val ammo_val ∧
      evaluate_confidence health_val ammo_val ≤ 1 := by
  unfold evaluate_confidence
  obtain ⟨hH0, hH1⟩ := membership_mem_unit healthHIGH health_val
  obtain ⟨hM0, hM1⟩ := membership_mem_unit healthMEDIUM health_val
  obtain ⟨hL0, hL1⟩ := membership_mem_unit healthLOW health_val
  obtain ⟨aH0, aH1⟩ := membership_mem_unit ammoHIGH ammo_val
  obtain ⟨aM0, aM1⟩ := membership_mem_unit ammoMEDIUM ammo_val
  obtain ⟨aL0, aL1⟩ := membership_mem_unit ammoLOW ammo_val
  have r1_0 : 0 ≤ min (healthHIGH.membership health_val) (ammoHIGH.membership ammo_val) :=
    le_min hH0 aH0
  have r2_0 : 0 ≤ min (healthMEDIUM.membership health_val) (ammoMEDIUM.membership ammo_val) :=
    le_min hM0 aM0
  have r3_0 : 0 ≤ max (healthLOW.membership health_val) (ammoLOW.membership ammo_val) :=
    le_max_of_le_left hL0
  simp only []
  split_ifs with hz
  · norm_num
  · have hpos : 0 < min (healthHIGH.membership health_val) (ammoHIGH.membership ammo_val) +
        min (healthMEDIUM.membership health_val) (ammoMEDIUM.membership ammo_val) +
        max (healthLOW.membership health_val) (ammoLOW.membership ammo_val) :=
      lt_of_le_of_ne (by linarith) (Ne.symm hz)
    constructor
    · apply div_nonneg (by linarith) (le_of_lt hpos)
    · rw [div_le_one hpos]
      linarith

/-! ## Minimax combat search (src/game/agents/minimax.py)

Float scores become reals; the float infinities used as initial best score
and as alpha and beta bounds become the extended reals bottom and top.  The
profiling counters of the source only feed logging and are not modelled. -/

structure CombatAgentState where
  x : ℤ
  y : ℤ
  health : ℝ
  ammo : ℤ

structure CombatState where
  agent : CombatAgentState
  opponent : CombatAgentState
  distance : ℝ

/-- CombatState construction: the post-init hook stores the Euclidean
distance between the two combatants. -/
noncomputable def mkCombatState (agent opponent : CombatAgentState) : CombatState :=
  ⟨agent, opponent,
    Real.sqrt (((agent.x - opponent.x) ^ 2 + (agent.y - opponent.y) ^ 2 : ℤ) : ℝ)⟩

/-- Minimax.evaluate: health difference weighted by 1 + aggression, ammo
difference weighted by 0.5, and the distance weighted by 0.2, negatively
when aggression exceeds 0.5. -/
noncomputable def evaluate (aggression : ℝ) (state : CombatState) : ℝ :=
  let health_diff := state.agent.health - state.opponent.health
  let ammo_diff := ((state.agent.ammo - state.opponent.ammo : ℤ) : ℝ)
  let dist := state.distance
  let dist_score := if aggression > 0.5 then -dist else dist
  let w_health := 1.0 + aggression
  let w_ammo := (0.5 : ℝ)
  let w_dist := (0.2 : ℝ)
  health_diff * w_health + ammo_diff * w_ammo + dist_score * w_dist

/-- Minimax private move generation: the four unit moves, plus an attack
costing one ammo and dealing a fixed 10 damage when ammo is available. -/
noncomputable def get_possible_moves (state : CombatState) (is_maximizing : Bool) :
    List (String × CombatState) :=
  let actor := if is_maximizing then state.agent else state.opponent
  let other := if is_maximizing then state.opponent else state.agent
  let directions : List (String × ℤ × ℤ) :=
    [("MOVE_UP", 0, -1), ("MOVE_DOWN", 0, 1), ("MOVE_LEFT", -1, 0), ("MOVE_RIGHT", 1, 0)]
  let moves := directions.map (fun d =>
    let new_actor := { actor with x := actor.x + d.2.1, y := actor.y + d.2.2 }
    (d.1, if is_maximizing then mkCombatState new_actor other
          else mkCombatState other new_actor))
  if actor.ammo > 0 then
    let new_actor := { actor with ammo := actor.ammo - 1 }
    let new_other := { other with health := other.health - 10 }
    moves ++ [("ATTACK", if is_maximizing then mkCombatState new_actor new_other
                         else mkCombatState new_other new_actor)]
  else moves

/-- Minimax private recursion with alpha-beta pruning; the for loops with
break become folds carrying a stopped flag. -/
noncomputable def minimaxAux (aggression : ℝ) : ℕ → CombatState → EReal → EReal → Bool → EReal
  | 0, state, _, _, _ => ((evaluate aggression state : ℝ) : EReal)
  | Nat.succ depth, state, alpha, beta, is_maximizing =>
    if state.agent.health ≤ 0 ∨ state.opponent.health ≤ 0 then
      ((evaluate aggression state : ℝ) : EReal)
    else if is_maximizing then
      ((get_possible_moves state true).foldl (fun acc mv =>
        if acc.2.2 then acc
        else
          let eval_score := minimaxAux aggression depth mv.2 acc.2.1 beta false
          let max_eval := max acc.1 eval_score
          let alpha := max acc.2.1 eval_score
          (max_eval, alpha, decide (beta ≤ alpha)))
        ((⊥ : EReal), alpha, false)).1
    else
      ((get_possible_moves state false).foldl (fun acc mv =>
        if acc.2.2 then acc
        else
          let eval_score := minimaxAux aggression depth mv.2 alpha acc.2.1 true
          let min_eval := min acc.1 eval_score
          let beta := min acc.2.1 eval_score
          (min_eval, beta, decide (beta ≤ alpha)))
        ((⊤ : EReal), beta, false)).1

/-- Minimax.get_best_move: maximizes over the own moves, scoring each with
the minimizing recursion one level down. -/
noncomputable def get_best_move (aggression : ℝ) (state : CombatState) (depth : ℕ) :
    Option String × EReal :=
  let moves := get_possible_moves state true
  let r := moves.foldl (fun acc mv =>
    if acc.2.2 then acc
    else
      let score := minimaxAux aggression (depth - 1) mv.2 acc.2.1 ⊤ false
      let best :=
        if score > acc.1.2 then (some mv.1, score) else acc.1
      let alpha := max acc.2.1 score
      (best, alpha, decide ((⊤ : EReal) ≤ alpha)))
    (((none : Option String), (⊥ : EReal)), (⊥ : EReal), false)
  r.1

/-- C6: on a combat state built by the constructor, evaluate returns exactly
the personality-weighted sum of the spec, with the distance term the
Euclidean distance, negated when aggression exceeds one half. -/
theorem C6_evaluate_formula (a o : CombatAgentState) (aggression : ℝ)
    (h0 : 0 ≤ aggression) (h1 : aggression ≤ 1) :
    evaluate aggression (mkCombatState a o) =
      (a.health - o.health) * (1 + aggression) +
        (((a.ammo : ℝ) - (o.ammo : ℝ)) * 0.5) +
        (if aggression > 0.5 then
            -Real.sqrt (((a.x : ℝ) - (o.x : ℝ)) ^ 2 + ((a.y : ℝ) - (o.y : ℝ)) ^ 2)
          else Real.sqrt (((a.x : ℝ) - (o.x : ℝ)) ^ 2 + ((a.y : ℝ) - (o.y : ℝ)) ^ 2)) * 0.2 := by
  have harg : (((a.x - o.x) ^ 2 + (a.y - o.y) ^ 2 : ℤ) : ℝ) =
      ((a.x : ℝ) - (o.x : ℝ)) ^ 2 + ((a.y : ℝ) - (o.y : ℝ)) ^ 2 := by
    push_cast
    ring
  simp only [evaluate, mkCombatState, harg]
  split_ifs <;> push_cast <;> ring

/-- Witness for C6 at aggression 0 and a 3-4-5 configuration. -/
theorem C6_witness :
    (0 : ℝ) ≤ 0 ∧ (0 : ℝ) ≤ 1 ∧
    evaluate 0 (mkCombatState ⟨0, 0, 100, 1⟩ ⟨3, 4, 50, 0⟩) =
      ((100 : ℝ) - 50) * (1 + 0) +
        (((1 : ℤ) : ℝ) - ((0 : ℤ) : ℝ)) * 0.5 +
        (if (0 : ℝ) > 0.5 then
            -Real.sqrt ((((0 : ℤ) : ℝ) - ((3 : ℤ) : ℝ)) ^ 2 + (((0 : ℤ) : ℝ) - ((4 : ℤ) : ℝ)) ^ 2)
          else Real.sqrt ((((0 : ℤ) : ℝ) - ((3 : ℤ) : ℝ)) ^ 2 + (((0 : ℤ) : ℝ) - ((4 : ℤ) : ℝ)) ^ 2)) * 0.2 := by
  refine ⟨le_refl 0, by norm_num, ?_⟩
  exact C6_evaluate_formula ⟨0, 0, 100, 1⟩ ⟨3, 4, 50, 0⟩ 0 (le_refl 0) (by norm_num)

/-! ## Visibility and perception (src/game/systems/visibility.py)

The beliefs mapping of VisibilitySystem is keyed by observer and then by
target; the update only ever touches the inner dictionary of the calling
observer, so the embedding carries that inner dictionary.  The two
random.randint draws of the noisy-position branch are oracle parameters
(one per axis); the decay branch never reaches them. -/

structure TargetEstimate where
  estimated_pos : ℤ × ℤ
  confidence : ℝ
  last_seen_time : ℝ

/-- VisibilitySystem.calculate_visibility_confidence: linear falloff over a
fixed 15-tile range, zero beyond it. -/
noncomputable def calculate_visibility_confidence (observer_pos target_pos : ℤ × ℤ) : ℝ :=
  let dx := observer_pos.1 - target_pos.1
  let dy := observer_pos.2 - target_pos.2
  let dist := Real.sqrt ((dx * dx + dy * dy : ℤ) : ℝ)
  let max_range : ℝ := 15.0
  if dist > max_range then 0
  else max 0.0 (1.0 - dist / max_range)

/-- VisibilitySystem.update_belief for one observer: when the visibility
score is at most 0.01 an existing belief decays by 0.1 (clamped at 0) with
the estimated position untouched; otherwise visibility and the internal
fuzzy confidence are blended and the estimate is stored, with integer noise
on the position unless the confidence exceeds 0.8. -/
noncomputable def update_belief (beliefs : List (ℤ × TargetEstimate))
    (observer_pos : ℤ × ℤ) (target_id : ℤ) (target_pos : ℤ × ℤ)
    (current_time : ℝ) (health_ctx ammo_ctx : EReal)
    (randint_x randint_y : ℤ → ℤ → ℤ) :
    TargetEstimate × List (ℤ × TargetEstimate) :=
  let vis_score := calculate_visibility_confidence observer_pos target_pos
  let internal_confidence := evaluate_confidence health_ctx ammo_ctx
  if vis_score ≤ 0.01 then
    match alookup beliefs target_id with
    | some current_belief =>
        let new_conf := max 0.0 (current_belief.confidence - 0.1)
        let updated := { current_belief with confidence := new_conf }
        (updated, aset beliefs target_id updated)
    | none => (⟨(0, 0), 0.0, current_time⟩, beliefs)
  else
    let final_confidence := vis_score * 0.7 + internal_confidence * 0.3
    let final_confidence := min 1.0 (max 0.0 final_confidence)
    let ep :=
      if final_confidence > 0.8 then target_pos
      else
        let noise_range := ⌊(1.0 - final_confidence) * 5⌋
        (target_pos.1 + randint_x (-noise_range) noise_range,
         target_pos.2 + randint_y (-noise_range) noise_range)
    let estimate : TargetEstimate := ⟨ep, final_confidence, current_time⟩
    (estimate, aset beliefs target_id estimate)

/-- N consecutive update_belief calls on the same observer-target pair. -/
noncomputable def decay_iterate (observer_pos : ℤ × ℤ) (target_id : ℤ)
    (target_pos : ℤ × ℤ) (current_time : ℝ) (health_ctx ammo_ctx : EReal)
    (randint_x randint_y : ℤ → ℤ → ℤ) :
    ℕ → List (ℤ × TargetEstimate) → List (ℤ × TargetEstimate)
  | 0, beliefs => beliefs
  | n + 1, beliefs =>
      (update_belief
        (decay_iterate observer_pos target_id target_pos current_time health_ctx ammo_ctx
          randint_x randint_y n beliefs)
        observer_pos target_id target_pos current_time health_ctx ammo_ctx
        randint_x randint_y).2

theorem visibility_zero_of_far (observer_pos target_pos : ℤ × ℤ)
    (hdist : (15 : ℝ) <
      Real.sqrt (((observer_pos.1 - target_pos.1) * (observer_pos.1 - target_pos.1) +
        (observer_pos.2 - target_pos.2) * (observer_pos.2 - target_pos.2) : ℤ) : ℝ)) :
    calculate_visibility_confidence observer_pos target_pos = 0 := by
  simp only [calculate_visibility_confidence]
  rw [if_pos]
  rw [show (15.0 : ℝ) = 15 by norm_num]
  exact hdist

theorem decay_formula (C : ℝ) (n : ℕ) :
    max 0.0 (max (0 : ℝ) (C - n * 0.1) - 0.1) = max 0 (C - ((n : ℝ) + 1) * 0.1) := by
  have hn : (0 : ℝ) ≤ (n : ℝ) := Nat.cast_nonneg n
  rw [show (0.0 : ℝ) = 0 from by norm_num]
  rcases le_or_lt (C - n * 0.1) 0 with hle | hlt
  · rw [max_eq_left hle, max_eq_left (by nlinarith), max_eq_left (by nlinarith)]
  · rw [max_eq_right hlt.le]
    rcases le_or_lt (C - n * 0.1 - 0.1) 0 with h2 | h2
    · rw [max_eq_left h2, max_eq_left (by nlinarith)]
    · rw [max_eq_right h2.le, max_eq_right (by nlinarith)]
      ring

theorem decay_mono (C : ℝ) (n : ℕ) :
    max (0 : ℝ) (C - ((n : ℝ) + 1) * 0.1) ≤ max 0 (C - n * 0.1) := by
  have hn : (0 : ℝ) ≤ (n : ℝ) := Nat.cast_nonneg n
  apply max_le (le_max_left _ _)
  apply le_max_of_le_right
  nlinarith

/-- C8: with a prior belief of confidence C and the target beyond the
maximum visibility range, N consecutive updates leave the estimated position
and timestamp untouched and the confidence is C minus N times 0.1, clamped
at 0 — in particular it never increases from one update to the next. -/
theorem C8_perception_decay (beliefs : List (ℤ × TargetEstimate))
    (observer_pos : ℤ × ℤ) (target_id : ℤ) (target_pos : ℤ × ℤ)
    (current_time : ℝ) (health_ctx ammo_ctx : EReal)
    (randint_x randint_y : ℤ → ℤ → ℤ) (est : TargetEstimate)
    (hdist : (15 : ℝ) <
      Real.sqrt (((observer_pos.1 - target_pos.1) * (observer_pos.1 - target_pos.1) +
        (observer_pos.2 - target_pos.2) * (observer_pos.2 - target_pos.2) : ℤ) : ℝ))
    (hbel : alookup beliefs target_id = some est)
    (hC : 0 ≤ est.confidence) :
    (∀ n : ℕ,
      alookup (decay_iterate observer_pos target_id target_pos current_time
          health_ctx ammo_ctx randint_x randint_y n beliefs) target_id =
        some ⟨est.estimated_pos, max 0 (est.confidence - n * 0.1), est.last_seen_time⟩) ∧
    (∀ n : ℕ,
      max (0 : ℝ) (est.confidence - (n + 1) * 0.1) ≤ max 0 (est.confidence - n * 0.1)) := by
  have hvis := visibility_zero_of_far observer_pos target_pos hdist
  constructor
  · intro n
    induction n with
    | zero =>
        simp only [decay_iterate, Nat.cast_zero, zero_mul, sub_zero]
        rw [hbel]
        congr 1
        cases est with
        | mk p c t => simp [max_eq_right hC]
    | succ n ih =>
        simp only [decay_iterate, update_belief, hvis]
        rw [if_pos (by norm_num : (0 : ℝ) ≤ 0.01), ih]
        simp only [alookup_aset_self]
        congr 2
        push_cast
        exact decay_formula est.confidence n
  · intro n
    exact decay_mono est.confidence n

/-- Concrete belief store for the C8 witness. -/
def c8Belief : TargetEstimate := ⟨(3, 3), 0.5, 0⟩

/-- Witness for C8: observer at the origin, target 20 tiles away, one stored
belief of confidence one half. -/
theorem C8_witness :
    ((15 : ℝ) < Real.sqrt (((((0, 0) : ℤ × ℤ).1 - ((20, 0) : ℤ × ℤ).1) *
        (((0, 0) : ℤ × ℤ).1 - ((20, 0) : ℤ × ℤ).1) +
        (((0, 0) : ℤ × ℤ).2 - ((20, 0) : ℤ × ℤ).2) *
        (((0, 0) : ℤ × ℤ).2 - ((20, 0) : ℤ × ℤ).2) : ℤ) : ℝ)) ∧
    alookup [((7 : ℤ), c8Belief)] 7 = some c8Belief ∧
    (0 : ℝ) ≤ c8Belief.confidence ∧
    (∀ n : ℕ,
      alookup (decay_iterate (0, 0) 7 (20, 0) 0 0 0 (fun _ _ => 0) (fun _ _ => 0) n
          [(7, c8Belief)]) 7 =
        some ⟨c8Belief.estimated_pos, max 0 (c8Belief.confidence - n * 0.1),
          c8Belief.last_seen_time⟩) := by
  have hdist : (15 : ℝ) < Real.sqrt (((((0, 0) : ℤ × ℤ).1 - ((20, 0) : ℤ × ℤ).1) *
      (((0, 0) : ℤ × ℤ).1 - ((20, 0) : ℤ × ℤ).1) +
      (((0, 0) : ℤ × ℤ).2 - ((20, 0) : ℤ × ℤ).2) *
      (((0, 0) : ℤ × ℤ).2 - ((20, 0) : ℤ × ℤ).2) : ℤ) : ℝ) := by
    have h400 : (((((0, 0) : ℤ × ℤ).1 - ((20, 0) : ℤ × ℤ).1) *
        (((0, 0) : ℤ × ℤ).1 - ((20, 0) : ℤ × ℤ).1) +
        (((0, 0) : ℤ × ℤ).2 - ((20, 0) : ℤ × ℤ).2) *
        (((0, 0) : ℤ × ℤ).2 - ((20, 0) : ℤ × ℤ).2) : ℤ) : ℝ) = 20 ^ 2 := by norm_num
    rw [h400, Real.sqrt_sq (by norm_num : (0 : ℝ) ≤ 20)]
    norm_num
  have hbel : alookup [((7 : ℤ), c8Belief)] 7 = some c8Belief := by norm_num [alookup]
  have hC : (0 : ℝ) ≤ c8Belief.confidence := by norm_num [c8Belief]
  exact ⟨hdist, hbel, hC,
    (C8_perception_decay [(7, c8Belief)] (0, 0) 7 (20, 0) 0 0 0
      (fun _ _ => 0) (fun _ _ => 0) c8Belief hdist hbel hC).1⟩

/-! ## A-star pathfinder (src/game/agents/astar.py)

Float costs and scores become rationals.  The open set is the bag of pushed
heap entries; heappop yields an entry of minimal priority, modelled as the
leftmost such entry (the properties proved below do not depend on which
minimal entry is chosen).  The while loop takes fuel, with none modelling a
search that has not finished; the termination theorem shows that on a
finitely closed neighbourhood some fuel always suffices.  Python would raise
KeyError on a g_score lookup of an unscored node; the search only ever looks
up scored nodes (an invariant proved below), so the getD 0 default is never
observable. -/

abbrev Coord := ℤ × ℤ

def manhattan (a b : Coord) : ℚ :=
  (((a.1 - b.1).natAbs + (a.2 - b.2).natAbs : ℕ) : ℚ)

structure PathfindingMap where
  get_neighbors : Coord → List Coord
  get_cost : Coord → ℚ

structure AState where
  openSet : List (ℚ × Coord)
  cameFrom : List (Coord × Coord)
  gScore : List (Coord × ℚ)

def popMin : List (ℚ × Coord) → Option ((ℚ × Coord) × List (ℚ × Coord))
  | [] => none
  | e :: es =>
    match popMin es with
    | none => some (e, [])
    | some (m, rest) => if e.1 ≤ m.1 then some (e, es) else some (m, e :: rest)

/-- Body of the neighbor loop of AStar.find_path: relax one neighbor, with
float infinity as the default of the g_score lookup. -/
def relax (m : PathfindingMap) (goal current : Coord) (s : AState) (neighbor : Coord) :
    AState :=
  let tentative_g := (alookup s.gScore current).getD 0 + m.get_cost neighbor
  let neighbor_g : WithTop ℚ :=
    match alookup s.gScore neighbor with
    | none => ⊤
    | some g => (g : WithTop ℚ)
  if (tentative_g : WithTop ℚ) < neighbor_g then
    { openSet := s.openSet ++ [(tentative_g + manhattan neighbor goal, neighbor)]
      cameFrom := aset s.cameFrom neighbor current
      gScore := aset s.gScore neighbor tentative_g }
  else s

def processNeighbors (m : PathfindingMap) (goal current : Coord) (s : AState) : AState :=
  (m.get_neighbors current).foldl (relax m goal current) s

/-- The came_from chain from a node; the stored number of links bounds the
length of the acyclic chain, so it serves as fuel for the while loop of
AStar._reconstruct_path. -/
def chainTo (cameFrom : List (Coord × Coord)) : ℕ → Coord → List Coord
  | 0, _ => []
  | n + 1, current =>
    match alookup cameFrom current with
    | none => []
    | some prev => prev :: chainTo cameFrom n prev

/-- AStar._reconstruct_path: collect current and its chain of predecessors,
then reverse. -/
def reconstruct_path (cameFrom : List (Coord × Coord)) (current : Coord) : List Coord :=
  (current :: chainTo cameFrom cameFrom.length current).reverse

/-- The while loop of AStar.find_path. -/
def loop (m : PathfindingMap) (goal : Coord) : ℕ → AState → Option (List Coord)
  | 0, _ => none
  | fuel + 1, s =>
    match popMin s.openSet with
    | none => some []
    | some (e, rest) =>
      if e.2 = goal then some (reconstruct_path s.cameFrom e.2)
      else loop m goal fuel (processNeighbors m goal e.2 { s with openSet := rest })

/-- AStar.find_path: the start equals goal early return, then the best-first
search seeded with the start node at priority 0. -/
def find_path (m : PathfindingMap) (start goal : Coord) (fuel : ℕ) : Option (List Coord) :=
  if start = goal then some [start]
  else loop m goal fuel { openSet := [(0, start)], cameFrom := [], gScore := [(start, 0)] }

/-! Path semantics used by the statements about the search. -/

def Step (m : PathfindingMap) (a b : Coord) : Prop := b ∈ m.get_neighbors a

/-- A coordinate sequence from s to g inclusive that steps only between
oracle neighbors. -/
def ValidPath (m : PathfindingMap) (s g : Coord) (p : List Coord) : Prop :=
  p.head? = some s ∧ p.getLast? = some g ∧ p.Chain' (Step m)

/-- Total cost of a sequence: the cost of every entered cell, exactly the
accumulation performed by the g scores of the search. -/
def pathCost (m : PathfindingMap) (p : List Coord) : ℚ := (p.tail.map m.get_cost).sum

def Reachable (m : PathfindingMap) (s g : Coord) : Prop := ∃ p, ValidPath m s g p

/-! ## World grid (src/game/world/map.py)

The grid is a list of rows indexed grid[y][x]; out-of-bounds reads would
raise IndexError in Python and the search only reads in-bounds cells, so the
getD defaults are never observable. -/

inductive TerrainType
  | FLOOR
  | WATER
  | WALL
  | MUD
  | GRASS
  | ROCK
deriving DecidableEq, Repr

structure Tile where
  terrain : TerrainType
  cost : ℚ
deriving DecidableEq, Repr

def TERRAIN_COSTS : TerrainType → ℚ
  | .FLOOR => 1
  | .WATER => 5
  | .WALL => 99
  | .MUD => 3
  | .GRASS => 1.2
  | .ROCK => 2

structure ResourceEntity where
  x : ℤ
  y : ℤ
  type : String
  amount : ℤ
deriving DecidableEq, Repr

structure World where
  width : ℤ
  height : ℤ
  grid : List (List Tile) := []
  resources : List ResourceEntity := []
deriving DecidableEq, Repr

/-- World.get_neighbors: the four cardinal neighbors that are in bounds;
walkability is not consulted. -/
def World.get_neighbors (w : World) (x y : ℤ) : List Coord :=
  ([(-1, 0), (1, 0), (0, -1), (0, 1)] : List (ℤ × ℤ)).filterMap (fun d =>
    let nx := x + d.1
    let ny := y + d.2
    if 0 ≤ nx ∧ nx < w.width ∧ 0 ≤ ny ∧ ny < w.height then some (nx, ny) else none)

def World.get_cost (w : World) (x y : ℤ) : ℚ :=
  ((w.grid.getD y.toNat []).getD x.toNat ⟨TerrainType.FLOOR, 1⟩).cost

def World.is_walkable (w : World) (x y : ℤ) : Bool :=
  if 0 ≤ x ∧ x < w.width ∧ 0 ≤ y ∧ y < w.height then
    ((w.grid.getD y.toNat []).getD x.toNat ⟨TerrainType.FLOOR, 1⟩).terrain ≠ TerrainType.WALL
  else false

/-- The oracle view of a World, as consumed by AStar.find_path through the
PathfindingMap protocol. -/
def World.toMap (w : World) : PathfindingMap :=
  { get_neighbors := fun c => w.get_neighbors c.1 c.2
    get_cost := fun c => w.get_cost c.1 c.2 }

/-! ## FightState.execute (src/game/agents/fsm.py)

The world_state handed to the states carries the agent list, the optional
world and whether an economy is attached (local mode).  Python mutates agent
objects in place, so an update to the acting agent or to the attack target
is visible through the shared agents list; updateAgentList mirrors that
aliasing by replacing the entries with the same id.  plan_path runs the
pathfinder with fuel (the termination theorem below shows enough fuel always
exists on a World).  Python sorts candidate lists with the stable sort and
takes the first element, the leftmost minimum of the key, which nearestBy
and minByLex compute directly. -/

structure WorldState where
  world : Option World := none
  agents : List Agent := []
  hasEconomy : Bool := false

def chebyshev (ax ay bx byy : ℤ) : ℤ := max |ax - bx| |ay - byy|

def lexLt (p q : ℤ × ℚ) : Prop := p.1 < q.1 ∨ (p.1 = q.1 ∧ p.2 < q.2)

instance (p q : ℤ × ℚ) : Decidable (lexLt p q) := by
  unfold lexLt
  infer_instance

/-- Leftmost minimum under the lexicographic tuple key used by the Python
min call selecting the fight target. -/
def minByLex (key : Agent → ℤ × ℚ) : List Agent → Option Agent
  | [] => none
  | x :: xs => some (xs.foldl (fun best o => if lexLt (key o) (key best) then o else best) x)

def set_path (a : Agent) (p : List Coord) : Agent := { a with path := p, path_index := 0 }

def intRange (lo hi : ℤ) : List ℤ := (List.range (hi - lo).toNat).map (fun i => lo + (i : ℤ))

/-- Target selection of FightState.execute: the living rivals, then the
Python min under the (chebyshev distance, health) tuple key. -/
def select_target (agent : Agent) (agents : List Agent) : Option Agent :=
  let potential_targets := agents.filter (fun o => o.id ≠ agent.id ∧ 0 < o.health)
  minByLex (fun o => (chebyshev agent.x agent.y o.x o.y, o.health)) potential_targets

/-- The best-tile double loop of the repath branch: every in-bounds tile
within chebyshev attack range of the target that is walkable, in the
iteration order of the two Python for loops. -/
def fight_candidates (w : World) (target : Agent) (attack_range : ℤ) : List Coord :=
  (intRange (max 0 (target.y - attack_range))
      (min w.height (target.y + attack_range + 1))).flatMap
    (fun ty =>
      (intRange (max 0 (target.x - attack_range))
          (min w.width (target.x + attack_range + 1))).filterMap
        (fun tx =>
          if chebyshev tx ty target.x target.y > attack_range then none
          else if ¬ w.is_walkable tx ty then none
          else some ((tx, ty) : Coord)))

/-- BaseAgent.plan_path: navigate from the current position and install the
result (the empty path when the search finds none). -/
noncomputable def plan_path (a : Agent) (target : Coord) (m : PathfindingMap) (fuel : ℕ) :
    Agent :=
  set_path a ((find_path m (a.x, a.y) target fuel).getD [])

/-- In-place object mutation seen through the shared agents list. -/
def updateAgentList (l : List Agent) (a : Agent) : List Agent :=
  l.map (fun o => if o.id = a.id then a else o)

/-- The dx, dy assignment of the combat branch for a non-attack move. -/
def move_direction (move : Option String) : ℤ × ℤ :=
  if move = some "MOVE_LEFT" then (-1, 0)
  else if move = some "MOVE_RIGHT" then (1, 0)
  else if move = some "MOVE_UP" then (0, -1)
  else if move = some "MOVE_DOWN" then (0, 1)
  else (0, 0)

/-- The best walkable neighbor fallback at the end of the repath branch. -/
noncomputable def fight_fallback (w : World) (target : Agent) (agent : Agent)
    (agents : List Agent) : Agent × List Agent × Option String :=
  let neighbors := (w.get_neighbors agent.x agent.y).filter (fun n => w.is_walkable n.1 n.2)
  match nearestBy (fun n => chebyshev n.1 n.2 target.x target.y) neighbors with
  | some n =>
      let agent := set_path agent [n]
      (agent, updateAgentList agents agent, none)
  | none => (agent, updateAgentList agents agent, none)

/-- FightState.execute: flee or scavenge guards, target selection, combat
within range via the minimax move, and the repath logic outside range. -/
noncomputable def fight_execute (aggression : ℝ) (depth : ℕ) (agent : Agent)
    (ws : WorldState) (fuel : ℕ) : Agent × List Agent × Option String :=
  if agent.health ≤ 20 then (agent, ws.agents, some "FLEE")
  else if agent.ammo ≤ 0 then (agent, ws.agents, some "SCAVENGE")
  else
    match select_target agent ws.agents with
    | none => (agent, ws.agents, some "SCAVENGE")
    | some target =>
      let dist := chebyshev agent.x agent.y target.x target.y
      let attack_range : ℤ := 5
      if dist ≤ attack_range then
        let state := mkCombatState ⟨agent.x, agent.y, (agent.health : ℝ), agent.ammo⟩
          ⟨target.x, target.y, (target.health : ℝ), target.ammo⟩
        let move := (get_best_move aggression state depth).1
        if move = some "ATTACK" then
          let agent := { agent with pending_attack_target_id := some target.id,
                                    ammo := agent.ammo - 1 }
          if ws.hasEconomy then
            let damage : ℤ := 10 + (alookup agent.upgrades UpgradeType.WEAPON_DMG).getD 0 * 5
            let target := { target with health := target.health - (damage : ℚ) }
            (agent, updateAgentList (updateAgentList ws.agents target) agent, none)
          else
            (agent, updateAgentList ws.agents agent, none)
        else
          let d : ℤ × ℤ := move_direction move
          if d.1 ≠ 0 ∨ d.2 ≠ 0 then
            let nx := agent.x + d.1
            let ny := agent.y + d.2
            match ws.world with
            | none =>
                let agent := set_path agent [(nx, ny)]
                (agent, updateAgentList ws.agents agent, none)
            | some w =>
                if w.is_walkable nx ny then
                  let agent := set_path agent [(nx, ny)]
                  (agent, updateAgentList ws.agents agent, none)
                else (agent, updateAgentList ws.agents agent, none)
          else (agent, updateAgentList ws.agents agent, none)
      else
        let agent := { agent with
          fight_repath_ticks := some ((agent.fight_repath_ticks.getD 0) + 1) }
        let target_pos := (target.x, target.y)
        match ws.world with
        | none => (agent, updateAgentList ws.agents agent, none)
        | some w =>
          let repath := agent.path = [] ∨ agent.path_index ≥ agent.path.length ∨
            agent.fight_target_pos ≠ some target_pos ∨ (agent.fight_repath_ticks.getD 0) ≥ 4
          if repath then
            let agent := { agent with fight_repath_ticks := some 0,
                                      fight_target_pos := some target_pos }
            match nearestBy (fun p => |agent.x - p.1| + |agent.y - p.2|)
                (fight_candidates w target attack_range) with
            | some bt =>
                let agent1 := plan_path { agent with path := [] } bt w.toMap fuel
                if agent1.path = [] ∨ agent1.path.length < 2 then
                  fight_fallback w target agent1 ws.agents
                else (agent1, updateAgentList ws.agents agent1, none)
            | none => fight_fallback w target agent ws.agents
          else (agent, updateAgentList ws.agents agent, none)

/-! Concrete run of the combat search used by the C5 counterexample: the
agent at the origin with 100 health and 1 ammo, the rival five tiles to the
right with 5 health and no ammo; at the default aggression 0.8 and depth 1
the search picks ATTACK. -/

theorem sqrt26_lt_6 : Real.sqrt 26 < 6 := by
  nlinarith [Real.sq_sqrt (show (0:ℝ) ≤ 26 by norm_num), Real.sqrt_nonneg (26:ℝ)]

theorem sqrt26_gt_4 : 4 < Real.sqrt 26 := by
  nlinarith [Real.sq_sqrt (show (0:ℝ) ≤ 26 by norm_num), Real.sqrt_nonneg (26:ℝ)]

theorem fight_moves_concrete :
    get_possible_moves (mkCombatState ⟨0, 0, 100, 1⟩ ⟨5, 0, 5, 0⟩) true =
      [("MOVE_UP", mkCombatState ⟨0, -1, 100, 1⟩ ⟨5, 0, 5, 0⟩),
       ("MOVE_DOWN", mkCombatState ⟨0, 1, 100, 1⟩ ⟨5, 0, 5, 0⟩),
       ("MOVE_LEFT", mkCombatState ⟨-1, 0, 100, 1⟩ ⟨5, 0, 5, 0⟩),
       ("MOVE_RIGHT", mkCombatState ⟨1, 0, 100, 1⟩ ⟨5, 0, 5, 0⟩),
       ("ATTACK", mkCombatState ⟨0, 0, 100, 0⟩ ⟨5, 0, -5, 0⟩)] := by
  simp only [get_possible_moves, mkCombatState]
  norm_num

theorem ev_up : evaluate 0.8 (mkCombatState ⟨0, -1, 100, 1⟩ ⟨5, 0, 5, 0⟩) =
    171.5 - 0.2 * Real.sqrt 26 := by
  have harg : ((((0 : ℤ) - 5) ^ 2 + ((-1 : ℤ) - 0) ^ 2 : ℤ) : ℝ) = 26 := by norm_num
  simp only [evaluate, mkCombatState, harg]
  rw [if_pos (by norm_num : (0.8 : ℝ) > 0.5)]
  norm_num
  ring

theorem ev_down : evaluate 0.8 (mkCombatState ⟨0, 1, 100, 1⟩ ⟨5, 0, 5, 0⟩) =
    171.5 - 0.2 * Real.sqrt 26 := by
  have harg : ((((0 : ℤ) - 5) ^ 2 + ((1 : ℤ) - 0) ^ 2 : ℤ) : ℝ) = 26 := by norm_num
  simp only [evaluate, mkCombatState, harg]
  rw [if_pos (by norm_num : (0.8 : ℝ) > 0.5)]
  norm_num
  ring

theorem ev_left : evaluate 0.8 (mkCombatState ⟨-1, 0, 100, 1⟩ ⟨5, 0, 5, 0⟩) = 170.3 := by
  have harg : ((((-1 : ℤ) - 5) ^ 2 + ((0 : ℤ) - 0) ^ 2 : ℤ) : ℝ) = 36 := by norm_num
  have hsqrt : Real.sqrt 36 = 6 := by
    rw [show (36 : ℝ) = 6 ^ 2 by norm_num]
    exact Real.sqrt_sq (by norm_num)
  simp only [evaluate, mkCombatState, harg, hsqrt]
  rw [if_pos (by norm_num : (0.8 : ℝ) > 0.5)]
  norm_num

theorem ev_right : evaluate 0.8 (mkCombatState ⟨1, 0, 100, 1⟩ ⟨5, 0, 5, 0⟩) = 170.7 := by
  have harg : ((((1 : ℤ) - 5) ^ 2 + ((0 : ℤ) - 0) ^ 2 : ℤ) : ℝ) = 16 := by norm_num
  have hsqrt : Real.sqrt 16 = 4 := by
    rw [show (16 : ℝ) = 4 ^ 2 by norm_num]
    exact Real.sqrt_sq (by norm_num)
  simp only [evaluate, mkCombatState, harg, hsqrt]
  rw [if_pos (by norm_num : (0.8 : ℝ) > 0.5)]
  norm_num

theorem ev_attack : evaluate 0.8 (mkCombatState ⟨0, 0, 100, 0⟩ ⟨5, 0, -5, 0⟩) = 188 := by
  have harg : ((((0 : ℤ) - 5) ^ 2 + ((0 : ℤ) - 0) ^ 2 : ℤ) : ℝ) = 25 := by norm_num
  have hsqrt : Real.sqrt 25 = 5 := by
    rw [show (25 : ℝ) = 5 ^ 2 by norm_num]
    exact Real.sqrt_sq (by norm_num)
  simp only [evaluate, mkCombatState, harg, hsqrt]
  rw [if_pos (by norm_num : (0.8 : ℝ) > 0.5)]
  norm_num

theorem get_best_move_attack_concrete :
    (get_best_move 0.8 (mkCombatState ⟨0, 0, 100, 1⟩ ⟨5, 0, 5, 0⟩) 1).1 = some "ATTACK" := by
  have hup : ¬ (((171.5 - 0.2 * Real.sqrt 26 : ℝ) : EReal) <
      ((171.5 - 0.2 * Real.sqrt 26 : ℝ) : EReal)) := lt_irrefl _
  have hleft : ¬ (((171.5 - 0.2 * Real.sqrt 26 : ℝ) : EReal) < ((170.3 : ℝ) : EReal)) := by
    rw [EReal.coe_lt_coe_iff]
    push_neg
    nlinarith [sqrt26_lt_6]
  have hright : ((171.5 - 0.2 * Real.sqrt 26 : ℝ) : EReal) < ((170.7 : ℝ) : EReal) := by
    rw [EReal.coe_lt_coe_iff]
    nlinarith [sqrt26_gt_4]
  have hattack : ((170.7 : ℝ) : EReal) < ((188 : ℝ) : EReal) := by
    rw [EReal.coe_lt_coe_iff]
    norm_num
  have hmaxl : max ((171.5 - 0.2 * Real.sqrt 26 : ℝ) : EReal) ((170.3 : ℝ) : EReal) =
      ((171.5 - 0.2 * Real.sqrt 26 : ℝ) : EReal) :=
    max_eq_left (le_of_not_lt hleft)
  have hmaxr : max ((171.5 - 0.2 * Real.sqrt 26 : ℝ) : EReal) ((170.7 : ℝ) : EReal) =
      ((170.7 : ℝ) : EReal) := max_eq_right (le_of_lt hright)
  have hmaxa : max ((170.7 : ℝ) : EReal) ((188 : ℝ) : EReal) = ((188 : ℝ) : EReal) :=
    max_eq_right (le_of_lt hattack)
  have hnt : ∀ r : ℝ, ¬ ((⊤ : EReal) ≤ (r : EReal)) := fun r =>
    not_le.mpr (EReal.coe_lt_top r)
  simp only [get_best_move, fight_moves_concrete, List.foldl_cons, List.foldl_nil,
    Nat.sub_self, minimaxAux, ev_up, ev_down, ev_left, ev_right, ev_attack]
  simp only [EReal.bot_lt_coe, bot_sup_eq, max_self, hmaxl, hmaxr, hmaxa, hup, hleft,
    hright, hattack, hnt, if_true, if_false, decide_eq_true_eq, ite_true, ite_false,
    gt_iff_lt, Bool.false_eq_true, lt_irrefl, lt_self_iff_false]

/-- Concrete fight scenario: full-health attacker with one ammo, rival at
distance five with 5 health. -/
def c5Agent : Agent := { id := 1, x := 0, y := 0, health := 100, ammo := 1 }

def c5Target : Agent := { id := 2, x := 5, y := 0, health := 5, ammo := 0 }

def c5WS : WorldState := { world := none, agents := [c5Agent, c5Target], hasEconomy := true }

/-- C5 counterexample: one FightState.execute tick in local mode resolves the
minimax ATTACK and leaves the target at health minus five, violating the
claimed health nonnegativity for the touched target. -/
theorem C5_counterexample_attack_drives_health_negative :
    ((fight_execute 0.8 1 c5Agent c5WS 0).2.1).map Agent.health = [100, -5] ∧
    ((-5 : ℚ) < 0) := by
  constructor
  · have hcast100 : ((100 : ℚ) : ℝ) = 100 := by norm_num
    have hcast5 : ((5 : ℚ) : ℝ) = 5 := by norm_num
    have hb : (get_best_move (4 / 5 : ℝ) (mkCombatState ⟨0, 0, 100, 1⟩ ⟨5, 0, 5, 0⟩) 1).1 =
        some "ATTACK" := by
      rw [show (4 / 5 : ℝ) = 0.8 by norm_num]
      exact get_best_move_attack_concrete
    simp only [fight_execute, c5WS, c5Agent, c5Target]
    norm_num [select_target, minByLex, chebyshev, List.filter, updateAgentList, alookup,
      hcast100, hcast5, hb]
  · norm_num

/-! Nonnegativity invariants for C5.  InvOK is the full invariant of the
spec; InvNoHealth drops the health clause, which the attack resolution of
FightState.execute violates for the target (see the counterexample). -/

def InvOK (a : Agent) : Prop :=
  0 ≤ a.health ∧ 0 ≤ a.ammo ∧ ∀ k v, alookup a.inventory k = some v → 0 ≤ v

def InvNoHealth (a : Agent) : Prop :=
  0 ≤ a.ammo ∧ ∀ k v, alookup a.inventory k = some v → 0 ≤ v

theorem inv_nonneg_aset {l : List (String × ℤ)} (k : String) {v : ℤ}
    (hl : ∀ k' v', alookup l k' = some v' → 0 ≤ v') (hv : 0 ≤ v) :
    ∀ k' v', alookup (aset l k v) k' = some v' → 0 ≤ v' := by
  intro k' v' h
  rw [alookup_aset] at h
  by_cases hk : k = k'
  · rw [if_pos hk] at h
    cases h
    exact hv
  · rw [if_neg hk] at h
    exact hl k' v' h

theorem getD_nonneg {l : List (String × ℤ)} {k : String}
    (hl : ∀ k' v', alookup l k' = some v' → 0 ≤ v') : 0 ≤ (alookup l k).getD 0 := by
  cases h : alookup l k with
  | none => simp
  | some v => simpa using hl k v h

theorem InvOK_of_econ_eq {a b : Agent} (hh : b.health = a.health) (ha : b.ammo = a.ammo)
    (hi : b.inventory = a.inventory) (h : InvOK a) : InvOK b := by
  unfold InvOK at h ⊢
  rw [hh, ha, hi]
  exact h

theorem InvNoHealth_of_econ_eq {a b : Agent} (ha : b.ammo = a.ammo)
    (hi : b.inventory = a.inventory) (h : InvNoHealth a) : InvNoHealth b := by
  unfold InvNoHealth at h ⊢
  rw [ha, hi]
  exact h

theorem InvNoHealth_of_InvOK {a : Agent} (h : InvOK a) : InvNoHealth a := ⟨h.2.1, h.2.2⟩

theorem foldl_choice {α : Type} (f : α → α → α) (hsel : ∀ b o, f b o = b ∨ f b o = o)
    (xs : List α) (b : α) : xs.foldl f b = b ∨ xs.foldl f b ∈ xs := by
  induction xs generalizing b with
  | nil => simp
  | cons x xs ih =>
    simp only [List.foldl_cons, List.mem_cons]
    rcases ih (f b x) with h | h
    · rw [h]
      rcases hsel b x with h2 | h2
      · exact Or.inl h2
      · exact Or.inr (Or.inl h2)
    · exact Or.inr (Or.inr h)

theorem minByLex_mem (key : Agent → ℤ × ℚ) (l : List Agent) (t : Agent)
    (h : minByLex key l = some t) : t ∈ l := by
  cases l with
  | nil => simp [minByLex] at h
  | cons x xs =>
    simp only [minByLex, Option.some.injEq] at h
    have := foldl_choice (fun best o => if lexLt (key o) (key best) then o else best)
      (fun b o => by by_cases hc : lexLt (key o) (key b) <;> simp [hc]) xs x
    rw [h] at this
    rcases this with h1 | h1
    · rw [h1]; exact List.mem_cons_self x xs
    · exact List.mem_cons_of_mem x h1

theorem nearestBy_mem {α : Type} (key : α → ℤ) (l : List α) (o : α)
    (h : nearestBy key l = some o) : o ∈ l := (nearestBy_spec key l o h).1

theorem updateAgentList_mem {l : List Agent} {a o : Agent}
    (ho : o ∈ updateAgentList l a) : o = a ∨ o ∈ l := by
  simp only [updateAgentList, List.mem_map] at ho
  obtain ⟨x, hx, hxo⟩ := ho
  by_cases hid : x.id = a.id
  · rw [if_pos hid] at hxo
    exact Or.inl hxo.symm
  · rw [if_neg hid] at hxo
    exact Or.inr (hxo ▸ hx)

theorem InvOK_set_path {a : Agent} (p : List Coord) (h : InvOK a) : InvOK (set_path a p) :=
  InvOK_of_econ_eq rfl rfl rfl h

theorem InvOK_plan_path {a : Agent} (t : Coord) (m : PathfindingMap) (fuel : ℕ)
    (h : InvOK a) : InvOK (plan_path a t m fuel) :=
  InvOK_of_econ_eq rfl rfl rfl h

theorem fight_fallback_spec (w : World) (target agent : Agent) (agents : List Agent)
    (h : InvOK agent) (hl : ∀ o ∈ agents, InvNoHealth o) :
    InvOK (fight_fallback w target agent agents).1 ∧
    ∀ o ∈ (fight_fallback w target agent agents).2.1, InvNoHealth o := by
  simp only [fight_fallback]
  cases hn : nearestBy (fun n => chebyshev n.1 n.2 target.x target.y)
      (List.filter (fun n => w.is_walkable n.1 n.2) (w.get_neighbors agent.x agent.y)) with
  | none =>
    refine ⟨h, ?_⟩
    intro o ho
    rcases updateAgentList_mem ho with rfl | ho
    · exact InvNoHealth_of_InvOK h
    · exact hl o ho
  | some n =>
    refine ⟨InvOK_set_path _ h, ?_⟩
    intro o ho
    rcases updateAgentList_mem ho with rfl | ho
    · exact InvNoHealth_of_InvOK (InvOK_set_path _ h)
    · exact hl o ho

theorem select_target_mem {agent : Agent} {agents : List Agent} {t : Agent}
    (h : select_target agent agents = some t) : t ∈ agents := by
  simp only [select_target] at h
  have := minByLex_mem _ _ _ h
  rw [List.mem_filter] at this
  exact this.1

theorem list_invariant_update {agents : List Agent} (a : Agent)
    (hl : ∀ o ∈ agents, InvNoHealth o) (ha : InvNoHealth a) :
    ∀ o ∈ updateAgentList agents a, InvNoHealth o := by
  intro o ho
  rcases updateAgentList_mem ho with rfl | ho
  · exact ha
  · exact hl o ho

/-- C5 amended: the three economy operations preserve nonnegativity of
health, ammo and every inventory count (for the nonnegative amounts and
upgrade values the engine uses), and FightState.execute preserves
nonnegativity of ammo and inventory counts for every touched agent and of
the acting agent health; the health of the attack target is the one
exception the counterexample exhibits. -/
theorem C5_amended_operations_preserve_nonnegativity :
    (∀ (agent : Agent) (resource : ResourceType) (amount : ℤ),
      0 ≤ amount → InvOK agent → InvOK (collect_resource agent resource amount)) ∧
    (∀ (agent : Agent) (resource : ResourceType) (amount : ℤ),
      0 ≤ amount → InvOK agent → InvOK (consume_item agent resource amount).1) ∧
    (∀ (agent : Agent) (upgrade : Upgrade),
      0 ≤ upgrade.value → InvOK agent → InvOK (purchase_upgrade agent upgrade).1) ∧
    (∀ (aggression : ℝ) (depth : ℕ) (agent : Agent) (ws : WorldState) (fuel : ℕ),
      InvOK agent → (∀ o ∈ ws.agents, InvNoHealth o) →
      InvOK (fight_execute aggression depth agent ws fuel).1 ∧
      ∀ o ∈ (fight_execute aggression depth agent ws fuel).2.1, InvNoHealth o) := by
  refine ⟨?_, ?_, ?_, ?_⟩
  · intro agent resource amount ham h
    obtain ⟨hh, hao, hinv⟩ := h
    exact ⟨hh, hao, inv_nonneg_aset resource.value hinv (add_nonneg (getD_nonneg hinv) ham)⟩
  · intro agent resource amount ham h
    obtain ⟨hh, hao, hinv⟩ := h
    simp only [consume_item]
    by_cases hc : (alookup agent.inventory resource.value).getD 0 ≥ amount
    · rw [if_pos hc]
      have hinv' := inv_nonneg_aset resource.value hinv (sub_nonneg.mpr hc)
      have hamq : (0 : ℚ) ≤ (amount : ℚ) := by exact_mod_cast ham
      cases resource with
      | FOOD =>
          exact ⟨le_min (by norm_num) (by nlinarith), hao, hinv'⟩
      | AMMO => exact ⟨hh, add_nonneg hao ham, hinv'⟩
      | SCRAP => exact ⟨hh, hao, hinv'⟩
    · rw [if_neg hc]
      exact ⟨hh, hao, hinv⟩
  · intro agent upgrade hval h
    obtain ⟨hh, hao, hinv⟩ := h
    simp only [purchase_upgrade]
    by_cases hc : (alookup agent.inventory "scrap").getD 0 ≥ upgrade.cost
    · rw [if_pos hc]
      have h1 := inv_nonneg_aset "scrap" hinv (sub_nonneg.mpr hc)
      have h2 := inv_nonneg_aset ("upgrade_" ++ upgrade.name) h1 (by norm_num : (0 : ℤ) ≤ 1)
      by_cases ht : upgrade.type = UpgradeType.MAX_HEALTH
      · rw [if_pos ht]
        exact ⟨add_nonneg hh hval, hao, h2⟩
      · rw [if_neg ht]
        exact ⟨hh, hao, h2⟩
    · rw [if_neg hc]
      exact ⟨hh, hao, hinv⟩
  · intro aggression depth agent ws fuel hA hList
    have hselfNH := InvNoHealth_of_InvOK hA
    simp only [fight_execute]
    by_cases h1 : agent.health ≤ 20
    · rw [if_pos h1]
      exact ⟨hA, hList⟩
    rw [if_neg h1]
    by_cases h2 : agent.ammo ≤ 0
    · rw [if_pos h2]
      exact ⟨hA, hList⟩
    rw [if_neg h2]
    cases htgt : select_target agent ws.agents with
    | none =>
        simp only []
        exact ⟨hA, hList⟩
    | some target =>
      simp only [Option.getD_some]
      have htNH : InvNoHealth target := hList target (select_target_mem htgt)
      by_cases hdist : chebyshev agent.x agent.y target.x target.y ≤ 5
      · rw [if_pos hdist]
        by_cases hmv : (get_best_move aggression
            (mkCombatState ⟨agent.x, agent.y, (agent.health : ℝ), agent.ammo⟩
              ⟨target.x, target.y, (target.health : ℝ), target.ammo⟩) depth).1 =
            some "ATTACK"
        · rw [if_pos hmv]
          have hA2 : InvOK ({ agent with pending_attack_target_id := some target.id, ammo := agent.ammo - 1 } : Agent) := ⟨hA.1, show (0 : ℤ) ≤ agent.ammo - 1 by omega, hA.2.2⟩
          by_cases hec : ws.hasEconomy = true
          · rw [if_pos hec]
            exact ⟨hA2, list_invariant_update _
              (list_invariant_update _ hList (InvNoHealth_of_econ_eq rfl rfl htNH))
              (InvNoHealth_of_InvOK hA2)⟩
          · rw [if_neg hec]
            exact ⟨hA2, list_invariant_update _ hList (InvNoHealth_of_InvOK hA2)⟩
        · rw [if_neg hmv]
          by_cases hd : (move_direction (get_best_move aggression
                (mkCombatState ⟨agent.x, agent.y, (agent.health : ℝ), agent.ammo⟩
                  ⟨target.x, target.y, (target.health : ℝ), target.ammo⟩) depth).1).1 ≠ 0 ∨
              (move_direction (get_best_move aggression
                (mkCombatState ⟨agent.x, agent.y, (agent.health : ℝ), agent.ammo⟩
                  ⟨target.x, target.y, (target.health : ℝ), target.ammo⟩) depth).1).2 ≠ 0
          · rw [if_pos hd]
            cases hw : ws.world with
            | none =>
                simp only []
                exact ⟨InvOK_set_path _ hA, list_invariant_update _ hList
                  (InvNoHealth_of_InvOK (InvOK_set_path _ hA))⟩
            | some w =>
                simp only []
                by_cases hwk : w.is_walkable
                    (agent.x + (move_direction (get_best_move aggression
                      (mkCombatState ⟨agent.x, agent.y, (agent.health : ℝ), agent.ammo⟩
                        ⟨target.x, target.y, (target.health : ℝ), target.ammo⟩) depth).1).1)
                    (agent.y + (move_direction (get_best_move aggression
                      (mkCombatState ⟨agent.x, agent.y, (agent.health : ℝ), agent.ammo⟩
                        ⟨target.x, target.y, (target.health : ℝ), target.ammo⟩) depth).1).2) =
                    true
                · rw [if_pos hwk]
                  exact ⟨InvOK_set_path _ hA, list_invariant_update _ hList
                    (InvNoHealth_of_InvOK (InvOK_set_path _ hA))⟩
                · rw [if_neg hwk]
                  exact ⟨hA, list_invariant_update _ hList hselfNH⟩
          · rw [if_neg hd]
            exact ⟨hA, list_invariant_update _ hList hselfNH⟩
      · rw [if_neg hdist]
        cases hw : ws.world with
        | none =>
            simp only []
            exact ⟨InvOK_of_econ_eq rfl rfl rfl hA, list_invariant_update _ hList
              (InvNoHealth_of_econ_eq rfl rfl hselfNH)⟩
        | some w =>
            simp only [Option.getD_some]
            by_cases hrep : agent.path = [] ∨ agent.path_index ≥ agent.path.length ∨
                agent.fight_target_pos ≠ some (target.x, target.y) ∨
                agent.fight_repath_ticks.getD 0 + 1 ≥ 4
            · rw [if_pos hrep]
              cases hbt : nearestBy (fun p => |agent.x - p.1| + |agent.y - p.2|)
                  (fight_candidates w target 5) with
              | none =>
                  simp only []
                  exact fight_fallback_spec w target _ ws.agents
                    (InvOK_of_econ_eq rfl rfl rfl hA) hList
              | some bt =>
                  simp only []
                  by_cases hshort : (plan_path { agent with path := ([] : List Coord), fight_repath_ticks := some 0, fight_target_pos := some (target.x, target.y) } bt w.toMap fuel).path = [] ∨ (plan_path { agent with path := ([] : List Coord), fight_repath_ticks := some 0, fight_target_pos := some (target.x, target.y) } bt w.toMap fuel).path.length < 2
                  · rw [if_pos hshort]
                    exact fight_fallback_spec w target _ ws.agents
                      (InvOK_plan_path _ _ _ (InvOK_of_econ_eq rfl rfl rfl hA)) hList
                  · rw [if_neg hshort]
                    have hA3 : InvOK (plan_path { agent with path := ([] : List Coord), fight_repath_ticks := some 0, fight_target_pos := some (target.x, target.y) } bt w.toMap fuel) :=
                      InvOK_plan_path _ _ _ (InvOK_of_econ_eq rfl rfl rfl hA)
                    exact ⟨hA3, list_invariant_update _ hList (InvNoHealth_of_InvOK hA3)⟩
            · rw [if_neg hrep]
              exact ⟨InvOK_of_econ_eq rfl rfl rfl hA, list_invariant_update _ hList
                (InvNoHealth_of_econ_eq rfl rfl hselfNH)⟩
/-- Witness for the amended C5 at a concrete agent: collecting one food and
one fight tick with no rivals both preserve the invariants. -/
theorem C5_witness :
    (0 : ℤ) ≤ 1 ∧ InvOK oneFoodAgent ∧
    (∀ o ∈ ([] : List Agent), InvNoHealth o) ∧
    InvOK (collect_resource oneFoodAgent ResourceType.FOOD 1) ∧
    InvOK (fight_execute 0.8 1 oneFoodAgent { world := none, agents := [], hasEconomy := true } 0).1 ∧
    (∀ o ∈ (fight_execute 0.8 1 oneFoodAgent { world := none, agents := [], hasEconomy := true } 0).2.1,
      InvNoHealth o) := by
  have hok : InvOK oneFoodAgent := by
    refine ⟨by norm_num [oneFoodAgent], by norm_num [oneFoodAgent], ?_⟩
    intro k v h
    simp only [oneFoodAgent, alookup] at h
    by_cases hk : "food" = k
    · rw [if_pos hk] at h
      cases h
      norm_num
    · rw [if_neg hk] at h
      cases h
  have hempty : ∀ o ∈ ([] : List Agent), InvNoHealth o := by
    intro o ho
    cases ho
  have h4 := (C5_amended_operations_preserve_nonnegativity.2.2.2) 0.8 1 oneFoodAgent
    { world := none, agents := [], hasEconomy := true } 0 hok hempty
  exact ⟨by norm_num, hok, hempty,
    C5_amended_operations_preserve_nonnegativity.1 oneFoodAgent ResourceType.FOOD 1
      (by norm_num) hok, h4.1, h4.2⟩

/-! ## Correctness development for the pathfinder.

Basic facts about popMin (it yields a least-priority entry and a permutation
of the rest) and about association list keys. -/

theorem popMin_eq_none {l : List (ℚ × Coord)} : popMin l = none ↔ l = [] := by
  cases l with
  | nil => simp [popMin]
  | cons e es =>
    simp only [popMin]
    cases h : popMin es with
    | none => simp
    | some p =>
      obtain ⟨m, rest⟩ := p
      by_cases hc : e.1 ≤ m.1 <;> simp [hc]

theorem popMin_perm {l : List (ℚ × Coord)} {e : ℚ × Coord} {rest : List (ℚ × Coord)}
    (h : popMin l = some (e, rest)) : l.Perm (e :: rest) := by
  induction l generalizing e rest with
  | nil => simp [popMin] at h
  | cons x xs ih =>
    simp only [popMin] at h
    cases hxs : popMin xs with
    | none =>
      rw [hxs] at h
      cases h
      rw [popMin_eq_none.mp hxs]
    | some p =>
      obtain ⟨m, mrest⟩ := p
      rw [hxs] at h
      simp only [] at h
      by_cases hc : x.1 ≤ m.1
      · rw [if_pos hc] at h
        cases h
        rfl
      · rw [if_neg hc] at h
        cases h
        exact ((ih hxs).cons x).trans (List.Perm.swap e x mrest)

theorem popMin_min {l : List (ℚ × Coord)} {e : ℚ × Coord} {rest : List (ℚ × Coord)}
    (h : popMin l = some (e, rest)) : ∀ x ∈ l, e.1 ≤ x.1 := by
  induction l generalizing e rest with
  | nil => simp [popMin] at h
  | cons x xs ih =>
    simp only [popMin] at h
    cases hxs : popMin xs with
    | none =>
      rw [hxs] at h
      cases h
      intro y hy
      rcases List.mem_cons.mp hy with rfl | hy
      · exact le_refl _
      · rw [popMin_eq_none.mp hxs] at hy
        cases hy
    | some p =>
      obtain ⟨m, mrest⟩ := p
      rw [hxs] at h
      simp only [] at h
      by_cases hc : x.1 ≤ m.1
      · rw [if_pos hc] at h
        cases h
        intro y hy
        rcases List.mem_cons.mp hy with rfl | hy
        · exact le_refl _
        · exact le_trans hc (ih hxs y hy)
      · rw [if_neg hc] at h
        cases h
        intro y hy
        rcases List.mem_cons.mp hy with rfl | hy
        · exact le_of_lt (not_le.mp hc)
        · exact ih hxs y hy

theorem popMin_mem {l : List (ℚ × Coord)} {e : ℚ × Coord} {rest : List (ℚ × Coord)}
    (h : popMin l = some (e, rest)) : e ∈ l :=
  (popMin_perm h).mem_iff.mpr (List.mem_cons_self e rest)

theorem popMin_rest_mem {l : List (ℚ × Coord)} {e : ℚ × Coord} {rest : List (ℚ × Coord)}
    (h : popMin l = some (e, rest)) : ∀ x ∈ rest, x ∈ l := by
  intro x hx
  exact (popMin_perm h).mem_iff.mpr (List.mem_cons_of_mem e hx)

theorem popMin_mem_rest_of_ne {l : List (ℚ × Coord)} {e : ℚ × Coord}
    {rest : List (ℚ × Coord)} (h : popMin l = some (e, rest)) :
    ∀ x ∈ l, x ≠ e → x ∈ rest := by
  intro x hx hne
  rcases List.mem_cons.mp ((popMin_perm h).mem_iff.mp hx) with h1 | h1
  · exact absurd h1 hne
  · exact h1

/-! Key bookkeeping for association lists. -/

theorem alookup_eq_none {K V : Type} [DecidableEq K] {l : List (K × V)} {k : K} :
    alookup l k = none ↔ k ∉ l.map Prod.fst := by
  induction l with
  | nil => simp [alookup]
  | cons kv t ih =>
    simp only [alookup, List.map_cons, List.mem_cons]
    by_cases h : kv.1 = k
    · simp [h]
    · have h2 : ¬ k = kv.1 := fun hc => h hc.symm
      simp [h, ih, h2]

theorem aset_keys {K V : Type} [DecidableEq K] (l : List (K × V)) (k : K) (v : V) :
    (aset l k v).map Prod.fst =
      if k ∈ l.map Prod.fst then l.map Prod.fst else l.map Prod.fst ++ [k] := by
  induction l with
  | nil => simp [aset]
  | cons kv t ih =>
    by_cases h : kv.1 = k
    · simp [aset, h]
    · have h2 : ¬ k = kv.1 := fun hc => h hc.symm
      simp only [aset, h, if_false, List.map_cons, ih, List.mem_cons]
      by_cases ht : k ∈ t.map Prod.fst <;> simp [ht, h2]

theorem aset_keys_nodup {K V : Type} [DecidableEq K] {l : List (K × V)} {k : K} {v : V}
    (h : (l.map Prod.fst).Nodup) : ((aset l k v).map Prod.fst).Nodup := by
  rw [aset_keys]
  by_cases hn : k ∈ l.map Prod.fst
  · rw [if_pos hn]
    exact h
  · rw [if_neg hn]
    rw [List.nodup_append]
    exact ⟨h, List.nodup_singleton k, by
      intro a ha hb
      rw [List.mem_singleton] at hb
      rw [hb] at ha
      exact hn ha⟩

theorem aset_length_of_none {K V : Type} [DecidableEq K] {l : List (K × V)} {k : K} (v : V)
    (h : alookup l k = none) : (aset l k v).length = l.length + 1 := by
  have := aset_keys l k v
  rw [if_neg (alookup_eq_none.mp h)] at this
  have h1 : ((aset l k v).map Prod.fst).length = (l.map Prod.fst ++ [k]).length := by rw [this]
  simpa using h1

theorem aset_length_of_some {K V : Type} [DecidableEq K] {l : List (K × V)} {k : K} {v w : V}
    (h : alookup l k = some w) : (aset l k v).length = l.length := by
  have hk : k ∈ l.map Prod.fst := by
    by_contra hc
    rw [alookup_eq_none.mpr hc] at h
    cases h
  have := aset_keys l k v
  rw [if_pos hk] at this
  have h1 : ((aset l k v).map Prod.fst).length = (l.map Prod.fst).length := by rw [this]
  simpa using h1

theorem alookup_mem_keys {K V : Type} [DecidableEq K] {l : List (K × V)} {k : K} {v : V}
    (h : alookup l k = some v) : k ∈ l.map Prod.fst := by
  by_contra hc
  rw [← alookup_eq_none] at hc
  rw [h] at hc
  cases hc

/-! Path algebra for the A-star statements. -/

theorem manhattan_nonneg (a b : Coord) : 0 ≤ manhattan a b := by
  unfold manhattan
  exact Nat.cast_nonneg _

theorem manhattan_self (a : Coord) : manhattan a a = 0 := by
  simp [manhattan]

theorem manhattan_triangle (a b c : Coord) :
    manhattan a c ≤ manhattan a b + manhattan b c := by
  unfold manhattan
  have h1 : (a.1 - c.1).natAbs ≤ (a.1 - b.1).natAbs + (b.1 - c.1).natAbs := by
    have he : a.1 - c.1 = (a.1 - b.1) + (b.1 - c.1) := by ring
    rw [he]
    exact Int.natAbs_add_le _ _
  have h2 : (a.2 - c.2).natAbs ≤ (a.2 - b.2).natAbs + (b.2 - c.2).natAbs := by
    have he : a.2 - c.2 = (a.2 - b.2) + (b.2 - c.2) := by ring
    rw [he]
    exact Int.natAbs_add_le _ _
  have h3 : (a.1 - c.1).natAbs + (a.2 - c.2).natAbs ≤
      ((a.1 - b.1).natAbs + (a.2 - b.2).natAbs) + ((b.1 - c.1).natAbs + (b.2 - c.2).natAbs) := by
    omega
  exact_mod_cast h3

theorem validPath_singleton (m : PathfindingMap) (a : Coord) : ValidPath m a a [a] :=
  ⟨rfl, by simp, List.chain'_singleton a⟩

theorem validPath_not_nil {m : PathfindingMap} {a v : Coord} (h : ValidPath m a v []) :
    False := by
  rcases h with ⟨h1, _, _⟩
  cases h1

theorem validPath_single {m : PathfindingMap} {a v x : Coord} (h : ValidPath m a v [x]) :
    a = x ∧ v = x := by
  rcases h with ⟨h1, h2, _⟩
  simp only [List.head?_cons, Option.some.injEq] at h1
  simp only [List.getLast?_singleton, Option.some.injEq] at h2
  exact ⟨h1.symm, h2.symm⟩

theorem validPath_cons_cons {m : PathfindingMap} {a v x y : Coord} {t : List Coord}
    (h : ValidPath m a v (x :: y :: t)) :
    x = a ∧ Step m a y ∧ ValidPath m y v (y :: t) := by
  rcases h with ⟨h1, h2, h3⟩
  have hx : x = a := by simpa using h1
  rw [List.chain'_cons] at h3
  subst hx
  exact ⟨rfl, h3.1, ⟨rfl, by simpa using h2, h3.2⟩⟩

theorem pathCost_single (m : PathfindingMap) (a : Coord) : pathCost m [a] = 0 := by
  simp [pathCost]

theorem pathCost_cons_cons (m : PathfindingMap) (a b : Coord) (t : List Coord) :
    pathCost m (a :: b :: t) = m.get_cost b + pathCost m (b :: t) := by
  simp [pathCost]

theorem validPath_snoc {m : PathfindingMap} {a v b : Coord} {p : List Coord}
    (h : ValidPath m a v p) (hs : Step m v b) : ValidPath m a b (p ++ [b]) := by
  rcases h with ⟨h1, h2, h3⟩
  refine ⟨?_, ?_, ?_⟩
  · cases p with
    | nil => cases h1
    | cons x t => simpa using h1
  · simp
  · rw [List.chain'_append]
    refine ⟨h3, List.chain'_singleton b, ?_⟩
    intro x hx y hy
    rw [h2] at hx
    simp only [Option.mem_def, Option.some.injEq] at hx
    simp only [List.head?_cons, Option.mem_def, Option.some.injEq] at hy
    rw [← hx, ← hy]
    exact hs

theorem pathCost_snoc (m : PathfindingMap) {p : List Coord} (hp : p ≠ []) (b : Coord) :
    pathCost m (p ++ [b]) = pathCost m p + m.get_cost b := by
  cases p with
  | nil => exact absurd rfl hp
  | cons x t => simp [pathCost]

theorem manhattan_le_pathCost {m : PathfindingMap}
    (Hcost : ∀ c, 1 ≤ m.get_cost c)
    (Hadj : ∀ c n, n ∈ m.get_neighbors c → manhattan c n = 1) :
    ∀ p a v, ValidPath m a v p → manhattan a v ≤ pathCost m p := by
  intro p
  induction p with
  | nil => exact fun a v h => absurd h (fun hh => validPath_not_nil hh)
  | cons x t ih =>
    intro a v h
    cases t with
    | nil =>
      obtain ⟨ha, hv⟩ := validPath_single h
      rw [ha, hv, manhattan_self, pathCost_single]
    | cons y t2 =>
      obtain ⟨hx, hstep, hrest⟩ := validPath_cons_cons h
      subst hx
      have h1 := ih y v hrest
      have h2 := manhattan_triangle x y v
      have h3 := Hadj x y hstep
      have h4 := Hcost y
      rw [pathCost_cons_cons]
      linarith

theorem sum_ge_length {l : List ℚ} (h : ∀ x ∈ l, 1 ≤ x) : (l.length : ℚ) ≤ l.sum := by
  induction l with
  | nil => simp
  | cons x t ih =>
    simp only [List.length_cons, List.sum_cons]
    push_cast
    have h1 := h x (by simp)
    have h2 := ih (fun y hy => h y (List.mem_cons_of_mem x hy))
    linarith

theorem length_le_pathCost_add_one {m : PathfindingMap} (Hcost : ∀ c, 1 ≤ m.get_cost c)
    {p : List Coord} (hp : p ≠ []) : (p.length : ℚ) ≤ pathCost m p + 1 := by
  cases p with
  | nil => exact absurd rfl hp
  | cons x t =>
    have h : ((t.map m.get_cost).length : ℚ) ≤ (t.map m.get_cost).sum :=
      sum_ge_length (by
        intro q hq
        rw [List.mem_map] at hq
        obtain ⟨c, _, hc⟩ := hq
        rw [← hc]
        exact Hcost c)
    simp only [List.length_map] at h
    simp only [pathCost, List.tail_cons, List.length_cons]
    push_cast
    linarith

theorem pathCost_nonneg {m : PathfindingMap} (Hcost : ∀ c, 1 ≤ m.get_cost c)
    (p : List Coord) : 0 ≤ pathCost m p := by
  have h : ((p.tail.map m.get_cost).length : ℚ) ≤ (p.tail.map m.get_cost).sum :=
    sum_ge_length (by
      intro q hq
      rw [List.mem_map] at hq
      obtain ⟨c, _, hc⟩ := hq
      rw [← hc]
      exact Hcost c)
  have h0 : (0 : ℚ) ≤ ((p.tail.map m.get_cost).length : ℚ) := Nat.cast_nonneg _
  exact le_trans h0 (by simpa [pathCost] using h)

/-! Reconstruction of the came_from chain.  The fuel used by
reconstruct_path is the length of the came_from list; the g score strictly
decreases along the chain (every edge was recorded with a positive cost), so
the chain visits pairwise distinct keys of came_from and the fuel suffices. -/

theorem filter_length_mono {α : Type} {l : List α} {p q : α → Bool}
    (hpq : ∀ x ∈ l, p x = true → q x = true) :
    (l.filter p).length ≤ (l.filter q).length := by
  induction l with
  | nil => simp
  | cons x t ih =>
    have ih2 := ih (fun y hy => hpq y (List.mem_cons_of_mem x hy))
    by_cases hp : p x = true
    · rw [List.filter_cons, List.filter_cons, if_pos hp,
        if_pos (hpq x (List.mem_cons_self x t) hp)]
      simp only [List.length_cons]
      omega
    · rw [List.filter_cons, List.filter_cons, if_neg hp]
      by_cases hq : q x = true
      · rw [if_pos hq]
        simp only [List.length_cons]
        omega
      · rw [if_neg hq]
        exact ih2

theorem filter_length_lt {α : Type} {l : List α} {p q : α → Bool}
    (hpq : ∀ x ∈ l, p x = true → q x = true) {a : α} (ha : a ∈ l)
    (hqa : q a = true) (hpa : ¬ p a = true) :
    (l.filter p).length < (l.filter q).length := by
  induction l with
  | nil => cases ha
  | cons x t ih =>
    have hmono := filter_length_mono (fun y hy => hpq y (List.mem_cons_of_mem x hy))
    rcases List.mem_cons.mp ha with rfl | hat
    · rw [List.filter_cons, List.filter_cons, if_pos hqa, if_neg hpa]
      simp only [List.length_cons]
      omega
    · have ihs := ih (fun y hy => hpq y (List.mem_cons_of_mem x hy)) hat
      by_cases hp : p x = true
      · rw [List.filter_cons, List.filter_cons, if_pos hp,
          if_pos (hpq x (List.mem_cons_self x t) hp)]
        simp only [List.length_cons]
        omega
      · rw [List.filter_cons, List.filter_cons, if_neg hp]
        by_cases hq : q x = true
        · rw [if_pos hq]
          simp only [List.length_cons]
          omega
        · rw [if_neg hq]
          exact ihs

/-- The keys of came_from whose g score is at most q: the fuel measure of the
reconstruction chain below a node scored q. -/
def chainMeasure (cameFrom : List (Coord × Coord)) (gScore : List (Coord × ℚ)) (q : ℚ) : ℕ :=
  ((cameFrom.map Prod.fst).filter (fun c => decide ((alookup gScore c).getD 0 ≤ q))).length

theorem chainTo_spec {m : PathfindingMap} {start : Coord}
    {cameFrom : List (Coord × Coord)} {gScore : List (Coord × ℚ)}
    (hstart : alookup gScore start = some 0)
    (hcf_edge : ∀ n c, alookup cameFrom n = some c →
      Step m c n ∧ ∃ qc qn, alookup gScore c = some qc ∧ alookup gScore n = some qn ∧
        qc + m.get_cost n ≤ qn)
    (hcf_dom : ∀ n, n ≠ start → (∃ q, alookup gScore n = some q) →
      ∃ c, alookup cameFrom n = some c)
    (Hcost : ∀ c, 1 ≤ m.get_cost c) :
    ∀ fuel cur q, alookup gScore cur = some q → chainMeasure cameFrom gScore q ≤ fuel →
      ValidPath m start cur ((cur :: chainTo cameFrom fuel cur).reverse) ∧
      pathCost m ((cur :: chainTo cameFrom fuel cur).reverse) ≤ q := by
  intro fuel
  induction fuel with
  | zero =>
    intro cur q hq hm
    have hnone : alookup cameFrom cur = none := by
      cases hcc : alookup cameFrom cur with
      | none => rfl
      | some c =>
        exfalso
        have hk : cur ∈ cameFrom.map Prod.fst := alookup_mem_keys hcc
        have hmem : cur ∈ (cameFrom.map Prod.fst).filter
            (fun c2 => decide ((alookup gScore c2).getD 0 ≤ q)) := by
          rw [List.mem_filter]
          refine ⟨hk, ?_⟩
          rw [hq]
          simp
        unfold chainMeasure at hm
        rw [Nat.le_zero, List.length_eq_zero] at hm
        rw [hm] at hmem
        cases hmem
    have hcs : cur = start := by
      by_contra hne
      obtain ⟨c, hc⟩ := hcf_dom cur hne ⟨q, hq⟩
      rw [hnone] at hc
      cases hc
    subst hcs
    have hq0 : (0 : ℚ) = q := Option.some.inj (hstart.symm.trans hq)
    simp only [chainTo, List.reverse_cons, List.reverse_nil, List.nil_append]
    exact ⟨validPath_singleton m cur, by rw [pathCost_single]; linarith⟩
  | succ fuel ih =>
    intro cur q hq hm
    cases hcc : alookup cameFrom cur with
    | none =>
      have hcs : cur = start := by
        by_contra hne
        obtain ⟨c, hc⟩ := hcf_dom cur hne ⟨q, hq⟩
        rw [hcc] at hc
        cases hc
      subst hcs
      have hq0 : (0 : ℚ) = q := Option.some.inj (hstart.symm.trans hq)
      have hct : chainTo cameFrom (fuel + 1) cur = [] := by
        simp only [chainTo, hcc]
      rw [hct]
      simp only [List.reverse_cons, List.reverse_nil, List.nil_append]
      exact ⟨validPath_singleton m cur, by rw [pathCost_single]; linarith⟩
    | some c =>
      obtain ⟨hstep, qc, qn, hqc, hqn, hle⟩ := hcf_edge cur c hcc
      have hqeq : q = qn := Option.some.inj (hq.symm.trans hqn)
      have hc1 := Hcost cur
      have hqc_lt : qc < q := by rw [hqeq]; linarith
      have hdec : chainMeasure cameFrom gScore qc < chainMeasure cameFrom gScore q := by
        unfold chainMeasure
        apply filter_length_lt
        · intro x hx hpx
          simp only [decide_eq_true_eq] at hpx ⊢
          linarith
        · exact alookup_mem_keys hcc
        · simp only [decide_eq_true_eq]
          rw [hq]
          simp
        · simp only [decide_eq_true_eq]
          rw [hq]
          simp only [Option.getD_some]
          exact not_le.mpr hqc_lt
      have hmc : chainMeasure cameFrom gScore qc ≤ fuel := by omega
      obtain ⟨ihv, ihc⟩ := ih c qc hqc hmc
      have hct : chainTo cameFrom (fuel + 1) cur = c :: chainTo cameFrom fuel c := by
        simp only [chainTo, hcc]
      rw [hct]
      have hrev : (cur :: c :: chainTo cameFrom fuel c).reverse
          = (c :: chainTo cameFrom fuel c).reverse ++ [cur] := by
        simp
      rw [hrev]
      refine ⟨validPath_snoc ihv hstep, ?_⟩
      rw [pathCost_snoc m (by simp) cur]
      rw [hqeq]
      linarith

theorem reconstruct_path_spec {m : PathfindingMap} {start : Coord}
    {cameFrom : List (Coord × Coord)} {gScore : List (Coord × ℚ)}
    (hstart : alookup gScore start = some 0)
    (hcf_edge : ∀ n c, alookup cameFrom n = some c →
      Step m c n ∧ ∃ qc qn, alookup gScore c = some qc ∧ alookup gScore n = some qn ∧
        qc + m.get_cost n ≤ qn)
    (hcf_dom : ∀ n, n ≠ start → (∃ q, alookup gScore n = some q) →
      ∃ c, alookup cameFrom n = some c)
    (Hcost : ∀ c, 1 ≤ m.get_cost c)
    {cur : Coord} {q : ℚ} (hq : alookup gScore cur = some q) :
    ValidPath m start cur (reconstruct_path cameFrom cur) ∧
    pathCost m (reconstruct_path cameFrom cur) ≤ q := by
  have hm : chainMeasure cameFrom gScore q ≤ cameFrom.length := by
    unfold chainMeasure
    calc ((cameFrom.map Prod.fst).filter
          (fun c => decide ((alookup gScore c).getD 0 ≤ q))).length
        ≤ (cameFrom.map Prod.fst).length := List.length_filter_le _ _
      _ = cameFrom.length := List.length_map _ _
  exact chainTo_spec hstart hcf_edge hcf_dom Hcost cameFrom.length cur q hq hm

/-! Invariants of the best-first loop of AStar.find_path. -/

/-- A node is fresh when a pushed entry with priority at most g + h is still
open, or all its neighbors are already relaxed against its current g score. -/
def FreshAt (m : PathfindingMap) (goal : Coord) (s : AState) (n : Coord) : Prop :=
  ∀ q, alookup s.gScore n = some q →
    (∃ f, (f, n) ∈ s.openSet ∧ f ≤ q + manhattan n goal) ∨
    (∀ nb ∈ m.get_neighbors n, ∃ qn, alookup s.gScore nb = some qn ∧
      qn ≤ q + m.get_cost nb)

structure BInv (m : PathfindingMap) (start goal : Coord) (s : AState) : Prop where
  gstart : alookup s.gScore start = some 0
  gnonneg : ∀ n q, alookup s.gScore n = some q → 0 ≤ q
  open_scored : ∀ f n, (f, n) ∈ s.openSet → ∃ q, alookup s.gScore n = some q
  open_goal : ∀ f, (f, goal) ∈ s.openSet → ∃ q, alookup s.gScore goal = some q ∧ q ≤ f
  cf_start : alookup s.cameFrom start = none
  cf_edge : ∀ n c, alookup s.cameFrom n = some c →
    Step m c n ∧ ∃ qc qn, alookup s.gScore c = some qc ∧ alookup s.gScore n = some qn ∧
      qc + m.get_cost n ≤ qn
  cf_dom : ∀ n, n ≠ start → (∃ q, alookup s.gScore n = some q) →
    ∃ c, alookup s.cameFrom n = some c
  goal_entry : ∀ q, alookup s.gScore goal = some q → ∃ f, (f, goal) ∈ s.openSet

def AInv (m : PathfindingMap) (start goal : Coord) (s : AState) : Prop :=
  BInv m start goal s ∧ ∀ n, FreshAt m goal s n

theorem relax_eq (m : PathfindingMap) (goal cur : Coord) (s : AState) (nb : Coord) :
    relax m goal cur s nb =
      if (((alookup s.gScore cur).getD 0 + m.get_cost nb : ℚ) : WithTop ℚ) <
          (match alookup s.gScore nb with
           | none => (⊤ : WithTop ℚ)
           | some g => (g : WithTop ℚ)) then
        { openSet := s.openSet ++
            [((alookup s.gScore cur).getD 0 + m.get_cost nb + manhattan nb goal, nb)]
          cameFrom := aset s.cameFrom nb cur
          gScore := aset s.gScore nb ((alookup s.gScore cur).getD 0 + m.get_cost nb) }
      else s := rfl

theorem relax_cases (m : PathfindingMap) (goal cur : Coord) (s : AState) (nb : Coord) :
    (relax m goal cur s nb = s ∧
      ∃ q, alookup s.gScore nb = some q ∧
        q ≤ (alookup s.gScore cur).getD 0 + m.get_cost nb) ∨
    ((∀ q, alookup s.gScore nb = some q →
        (alookup s.gScore cur).getD 0 + m.get_cost nb < q) ∧
      relax m goal cur s nb =
        { openSet := s.openSet ++
            [((alookup s.gScore cur).getD 0 + m.get_cost nb + manhattan nb goal, nb)]
          cameFrom := aset s.cameFrom nb cur
          gScore := aset s.gScore nb ((alookup s.gScore cur).getD 0 + m.get_cost nb) }) := by
  rw [relax_eq]
  cases hnb : alookup s.gScore nb with
  | none =>
    right
    constructor
    · intro q hq
      cases hq
    · simp only []
      rw [if_pos (WithTop.coe_lt_top _)]
  | some g =>
    simp only []
    by_cases hlt : (alookup s.gScore cur).getD 0 + m.get_cost nb < g
    · right
      constructor
      · intro q hq
        cases hq
        exact hlt
      · rw [if_pos (by exact_mod_cast hlt)]
    · left
      constructor
      · rw [if_neg (by
          intro hcon
          exact hlt (by exact_mod_cast hcon))]
      · exact ⟨g, rfl, not_lt.mp hlt⟩

theorem relax_cur_eq {m : PathfindingMap} {goal cur : Coord} {s : AState} {nb : Coord}
    {qc : ℚ} (Hcost : ∀ c, 1 ≤ m.get_cost c) (hq : alookup s.gScore cur = some qc) :
    alookup (relax m goal cur s nb).gScore cur = some qc := by
  rcases relax_cases m goal cur s nb with ⟨heq, _⟩ | ⟨hlt, heq⟩
  · rw [heq]
    exact hq
  · rw [heq]
    by_cases hnc : nb = cur
    · exfalso
      have hq2 : alookup s.gScore nb = some qc := by rw [hnc]; exact hq
      have h3 := hlt qc hq2
      rw [hq] at h3
      simp only [Option.getD_some] at h3
      have h4 := Hcost nb
      linarith
    · show alookup (aset s.gScore nb _) cur = some qc
      rw [alookup_aset, if_neg hnc]
      exact hq

theorem relax_open_sub (m : PathfindingMap) (goal cur : Coord) (s : AState) (nb : Coord) :
    ∀ e ∈ s.openSet, e ∈ (relax m goal cur s nb).openSet := by
  rcases relax_cases m goal cur s nb with ⟨heq, _⟩ | ⟨_, heq⟩ <;> rw [heq]
  · exact fun e he => he
  · intro e he
    exact List.mem_append_left _ he

theorem relax_bound_persist {m : PathfindingMap} {goal cur : Coord} {s : AState}
    {nb x : Coord} {B : ℚ} (h : ∃ q, alookup s.gScore x = some q ∧ q ≤ B) :
    ∃ q, alookup (relax m goal cur s nb).gScore x = some q ∧ q ≤ B := by
  obtain ⟨q, hq, hb⟩ := h
  rcases relax_cases m goal cur s nb with ⟨heq, _⟩ | ⟨hlt, heq⟩
  · rw [heq]
    exact ⟨q, hq, hb⟩
  · rw [heq]
    show ∃ q2, alookup (aset s.gScore nb _) x = some q2 ∧ q2 ≤ B
    rw [alookup_aset]
    by_cases hx : nb = x
    · rw [if_pos hx]
      refine ⟨_, rfl, ?_⟩
      have hq2 : alookup s.gScore nb = some q := by rw [hx]; exact hq
      have h3 := hlt q hq2
      linarith
    · rw [if_neg hx]
      exact ⟨q, hq, hb⟩

theorem relax_BInv {m : PathfindingMap} {start goal : Coord} {s : AState} {cur nb : Coord}
    (Hcost : ∀ c, 1 ≤ m.get_cost c) (hnbr : nb ∈ m.get_neighbors cur) {qc : ℚ}
    (hqc : alookup s.gScore cur = some qc) (hb : BInv m start goal s) :
    BInv m start goal (relax m goal cur s nb) := by
  rcases relax_cases m goal cur s nb with ⟨heq, _⟩ | ⟨hlt, heq⟩
  · rw [heq]
    exact hb
  · have hcost1 := Hcost nb
    have hqc0 : 0 ≤ qc := hb.gnonneg cur qc hqc
    have hgd : (alookup s.gScore cur).getD 0 = qc := by rw [hqc]; rfl
    have hnbstart : nb ≠ start := by
      intro hns
      have h2 : alookup s.gScore nb = some 0 := by rw [hns]; exact hb.gstart
      have h3 := hlt 0 h2
      rw [hgd] at h3
      linarith
    rw [heq]
    refine ⟨?_, ?_, ?_, ?_, ?_, ?_, ?_, ?_⟩
    · show alookup (aset s.gScore nb _) start = some 0
      rw [alookup_aset, if_neg hnbstart]
      exact hb.gstart
    · intro n q
      show alookup (aset s.gScore nb _) n = some q → 0 ≤ q
      rw [alookup_aset]
      by_cases h : nb = n
      · rw [if_pos h]
        intro hq
        cases hq
        rw [hgd]
        linarith
      · rw [if_neg h]
        exact hb.gnonneg n q
    · intro f n hmem
      show ∃ q, alookup (aset s.gScore nb _) n = some q
      rw [alookup_aset]
      by_cases h : nb = n
      · rw [if_pos h]
        exact ⟨_, rfl⟩
      · rw [if_neg h]
        rcases List.mem_append.mp hmem with h1 | h1
        · exact hb.open_scored f n h1
        · exfalso
          injection List.mem_singleton.mp h1 with hf hn
          exact h hn.symm
    · intro f hmem
      show ∃ q, alookup (aset s.gScore nb _) goal = some q ∧ q ≤ f
      rw [alookup_aset]
      rcases List.mem_append.mp hmem with h1 | h1
      · obtain ⟨q, hq2, hqf⟩ := hb.open_goal f h1
        by_cases h : nb = goal
        · rw [if_pos h]
          refine ⟨_, rfl, ?_⟩
          have hq3 : alookup s.gScore nb = some q := by rw [h]; exact hq2
          have h4 := hlt q hq3
          linarith
        · rw [if_neg h]
          exact ⟨q, hq2, hqf⟩
      · injection List.mem_singleton.mp h1 with hf hn
        rw [if_pos hn.symm]
        refine ⟨_, rfl, ?_⟩
        rw [hf]
        have h5 := manhattan_nonneg nb goal
        linarith
    · show alookup (aset s.cameFrom nb cur) start = none
      rw [alookup_aset, if_neg hnbstart]
      exact hb.cf_start
    · intro n c
      show alookup (aset s.cameFrom nb cur) n = some c → _
      rw [alookup_aset]
      by_cases h : nb = n
      · rw [if_pos h]
        intro hc
        cases hc
        constructor
        · rw [← h]
          exact hnbr
        · have hnbcur : nb ≠ cur := by
            intro hnc
            have h2 : alookup s.gScore nb = some qc := by rw [hnc]; exact hqc
            have h3 := hlt qc h2
            rw [hgd] at h3
            linarith
          refine ⟨qc, (alookup s.gScore cur).getD 0 + m.get_cost nb, ?_, ?_, ?_⟩
          · show alookup (aset s.gScore nb _) cur = some qc
            rw [alookup_aset, if_neg hnbcur]
            exact hqc
          · show alookup (aset s.gScore nb _) n = some _
            rw [alookup_aset, if_pos h]
          · rw [hgd, ← h]
      · rw [if_neg h]
        intro hc
        obtain ⟨hstep, qc2, qn2, hqc2, hqn2, hle2⟩ := hb.cf_edge n c hc
        refine ⟨hstep, ?_⟩
        by_cases hcnb : nb = c
        · have hq3 : alookup s.gScore nb = some qc2 := by rw [hcnb]; exact hqc2
          have h4 := hlt qc2 hq3
          refine ⟨(alookup s.gScore cur).getD 0 + m.get_cost nb, qn2, ?_, ?_, ?_⟩
          · show alookup (aset s.gScore nb _) c = some _
            rw [alookup_aset, if_pos hcnb]
          · show alookup (aset s.gScore nb _) n = some qn2
            rw [alookup_aset, if_neg h]
            exact hqn2
          · linarith
        · refine ⟨qc2, qn2, ?_, ?_, hle2⟩
          · show alookup (aset s.gScore nb _) c = some qc2
            rw [alookup_aset, if_neg hcnb]
            exact hqc2
          · show alookup (aset s.gScore nb _) n = some qn2
            rw [alookup_aset, if_neg h]
            exact hqn2
    · intro n hns hsc
      show ∃ c, alookup (aset s.cameFrom nb cur) n = some c
      rw [alookup_aset]
      by_cases h : nb = n
      · rw [if_pos h]
        exact ⟨cur, rfl⟩
      · rw [if_neg h]
        apply hb.cf_dom n hns
        obtain ⟨q, hq2⟩ := hsc
        have hq3 : alookup (aset s.gScore nb
            ((alookup s.gScore cur).getD 0 + m.get_cost nb)) n = some q := hq2
        rw [alookup_aset, if_neg h] at hq3
        exact ⟨q, hq3⟩
    · intro q hq2
      have hq3 : alookup (aset s.gScore nb
          ((alookup s.gScore cur).getD 0 + m.get_cost nb)) goal = some q := hq2
      by_cases h : nb = goal
      · refine ⟨(alookup s.gScore cur).getD 0 + m.get_cost nb + manhattan nb goal, ?_⟩
        apply List.mem_append_right
        rw [h]
        exact List.mem_singleton_self _
      · rw [alookup_aset, if_neg h] at hq3
        obtain ⟨f, hf⟩ := hb.goal_entry q hq3
        exact ⟨f, List.mem_append_left _ hf⟩

theorem relax_FreshAt {m : PathfindingMap} {goal : Coord} {s : AState} {cur nb n : Coord}
    (h : FreshAt m goal s n) : FreshAt m goal (relax m goal cur s nb) n := by
  rcases relax_cases m goal cur s nb with ⟨heq, _⟩ | ⟨hlt, heq⟩
  · rw [heq]
    exact h
  · rw [heq]
    intro q hq
    have hq2 : alookup (aset s.gScore nb
        ((alookup s.gScore cur).getD 0 + m.get_cost nb)) n = some q := hq
    rw [alookup_aset] at hq2
    by_cases hn : nb = n
    · rw [if_pos hn] at hq2
      left
      refine ⟨(alookup s.gScore cur).getD 0 + m.get_cost nb + manhattan nb goal, ?_, ?_⟩
      · apply List.mem_append_right
        rw [hn]
        exact List.mem_singleton_self _
      · have hqt : q = (alookup s.gScore cur).getD 0 + m.get_cost nb :=
          (Option.some.inj hq2).symm
        rw [hqt, hn]
    · rw [if_neg hn] at hq2
      rcases h q hq2 with ⟨f, hf, hfle⟩ | hrel
      · left
        exact ⟨f, List.mem_append_left _ hf, hfle⟩
      · right
        intro nb2 hnb2
        obtain ⟨qn2, hqn2, hle2⟩ := hrel nb2 hnb2
        show ∃ qn, alookup (aset s.gScore nb _) nb2 = some qn ∧ _
        rw [alookup_aset]
        by_cases h2 : nb = nb2
        · rw [if_pos h2]
          refine ⟨_, rfl, ?_⟩
          have hq3 : alookup s.gScore nb = some qn2 := by rw [h2]; exact hqn2
          have h4 := hlt qn2 hq3
          linarith
        · rw [if_neg h2]
          exact ⟨qn2, hqn2, hle2⟩

theorem foldl_relax_spec {m : PathfindingMap} {start goal cur : Coord}
    (Hcost : ∀ c, 1 ≤ m.get_cost c) :
    ∀ (L : List Coord) (s : AState) (qc : ℚ),
      alookup s.gScore cur = some qc →
      (∀ nb ∈ L, nb ∈ m.get_neighbors cur) →
      BInv m start goal s →
      alookup (L.foldl (relax m goal cur) s).gScore cur = some qc ∧
      BInv m start goal (L.foldl (relax m goal cur) s) ∧
      (∀ n, FreshAt m goal s n → FreshAt m goal (L.foldl (relax m goal cur) s) n) ∧
      (∀ e ∈ s.openSet, e ∈ (L.foldl (relax m goal cur) s).openSet) ∧
      (∀ x B, (∃ q, alookup s.gScore x = some q ∧ q ≤ B) →
        ∃ q, alookup (L.foldl (relax m goal cur) s).gScore x = some q ∧ q ≤ B) ∧
      (∀ nb ∈ L, ∃ qn, alookup (L.foldl (relax m goal cur) s).gScore nb = some qn ∧
        qn ≤ qc + m.get_cost nb) := by
  intro L
  induction L with
  | nil =>
    intro s qc hqc hL hb
    refine ⟨hqc, hb, fun n h => h, fun e he => he, fun x B h => h, ?_⟩
    intro nb hnb
    cases hnb
  | cons a L ih =>
    intro s qc hqc hL hb
    have ha : a ∈ m.get_neighbors cur := hL a (List.mem_cons_self a L)
    have hq1 : alookup (relax m goal cur s a).gScore cur = some qc := relax_cur_eq Hcost hqc
    have hb1 : BInv m start goal (relax m goal cur s a) := relax_BInv Hcost ha hqc hb
    obtain ⟨c1, c2, c3, c4, c5, c6⟩ := ih (relax m goal cur s a) qc hq1
      (fun nb hnb => hL nb (List.mem_cons_of_mem a hnb)) hb1
    simp only [List.foldl_cons]
    refine ⟨c1, c2, ?_, ?_, ?_, ?_⟩
    · exact fun n h => c3 n (relax_FreshAt h)
    · exact fun e he => c4 e (relax_open_sub m goal cur s a e he)
    · exact fun x B h => c5 x B (relax_bound_persist h)
    · intro nb hnb
      rcases List.mem_cons.mp hnb with rfl | hnb2
      · apply c5
        rcases relax_cases m goal cur s nb with ⟨heq, q0, hq0, hle0⟩ | ⟨hlt, heq⟩
        · rw [heq]
          refine ⟨q0, hq0, ?_⟩
          rw [hqc] at hle0
          simp only [Option.getD_some] at hle0
          exact hle0
        · rw [heq]
          refine ⟨(alookup s.gScore cur).getD 0 + m.get_cost nb, ?_, ?_⟩
          · show alookup (aset s.gScore nb _) nb = some _
            rw [alookup_aset, if_pos rfl]
          · rw [hqc]
            simp only [Option.getD_some]
            exact le_refl _
      · exact c6 nb hnb2

theorem pop_AInv {m : PathfindingMap} {start goal : Coord} {s : AState}
    {e : ℚ × Coord} {rest : List (ℚ × Coord)}
    (hpop : popMin s.openSet = some (e, rest)) (hne : e.2 ≠ goal)
    (hinv : AInv m start goal s) :
    BInv m start goal { s with openSet := rest } ∧
    (∀ n, n ≠ e.2 → FreshAt m goal { s with openSet := rest } n) := by
  obtain ⟨hb, hf⟩ := hinv
  constructor
  · refine ⟨hb.gstart, hb.gnonneg, ?_, ?_, hb.cf_start, hb.cf_edge, hb.cf_dom, ?_⟩
    · intro f n hmem
      exact hb.open_scored f n (popMin_rest_mem hpop _ hmem)
    · intro f hmem
      exact hb.open_goal f (popMin_rest_mem hpop _ hmem)
    · intro q hq
      obtain ⟨f, hfmem⟩ := hb.goal_entry q hq
      refine ⟨f, ?_⟩
      apply popMin_mem_rest_of_ne hpop _ hfmem
      intro hcon
      apply hne
      rw [← hcon]
  · intro n hn q hq
    rcases hf n q hq with ⟨f, hfmem, hfle⟩ | hrel
    · left
      refine ⟨f, ?_, hfle⟩
      apply popMin_mem_rest_of_ne hpop _ hfmem
      intro hcon
      apply hn
      rw [← hcon]
    · right
      exact hrel

theorem step_AInv {m : PathfindingMap} {start goal : Coord} {s : AState}
    {e : ℚ × Coord} {rest : List (ℚ × Coord)}
    (Hcost : ∀ c, 1 ≤ m.get_cost c)
    (hpop : popMin s.openSet = some (e, rest)) (hne : e.2 ≠ goal)
    (hinv : AInv m start goal s) :
    AInv m start goal (processNeighbors m goal e.2 { s with openSet := rest }) := by
  obtain ⟨hb2, hf2⟩ := pop_AInv hpop hne hinv
  have hmem : e ∈ s.openSet := popMin_mem hpop
  obtain ⟨qc, hqc⟩ := hinv.1.open_scored e.1 e.2 (by rw [Prod.mk.eta]; exact hmem)
  have hqc2 : alookup ({ s with openSet := rest } : AState).gScore e.2 = some qc := hqc
  obtain ⟨c1, c2, c3, c4, c5, c6⟩ := foldl_relax_spec Hcost (m.get_neighbors e.2)
    { s with openSet := rest } qc hqc2 (fun nb hnb => hnb) hb2
  have c1a : alookup (processNeighbors m goal e.2
      { s with openSet := rest }).gScore e.2 = some qc := c1
  refine ⟨c2, ?_⟩
  intro n
  by_cases hn : n = e.2
  · subst hn
    intro q hq
    rw [c1a] at hq
    cases hq
    right
    intro nb hnb
    exact c6 nb hnb
  · exact c3 n (hf2 n hn)

theorem frontier_aux {m : PathfindingMap} {start goal : Coord} {s : AState}
    (Hcost : ∀ c, 1 ≤ m.get_cost c)
    (Hadj : ∀ c n, n ∈ m.get_neighbors c → manhattan c n = 1)
    (hinv : AInv m start goal s) :
    ∀ (t : List Coord) (a : Coord) (qa : ℚ), ValidPath m a goal (a :: t) →
      alookup s.gScore a = some qa →
      (∃ q, alookup s.gScore goal = some q ∧ q ≤ qa + pathCost m (a :: t)) ∨
      (∃ f w, (f, w) ∈ s.openSet ∧ f ≤ qa + pathCost m (a :: t)) := by
  intro t
  induction t with
  | nil =>
    intro a qa hvp hqa
    obtain ⟨_, hg⟩ := validPath_single hvp
    left
    refine ⟨qa, ?_, ?_⟩
    · rw [hg]
      exact hqa
    · rw [pathCost_single]
      linarith
  | cons b t2 ih =>
    intro a qa hvp hqa
    obtain ⟨_, hstep, hrest⟩ := validPath_cons_cons hvp
    rcases hinv.2 a qa hqa with ⟨f, hfmem, hfle⟩ | hrel
    · right
      refine ⟨f, a, hfmem, ?_⟩
      have hadm := manhattan_le_pathCost Hcost Hadj (a :: b :: t2) a goal hvp
      linarith
    · obtain ⟨qb, hqb, hqble⟩ := hrel b hstep
      rcases ih b qb hrest hqb with ⟨q, hq, hle⟩ | ⟨f, w, hfm, hfle⟩
      · left
        refine ⟨q, hq, ?_⟩
        rw [pathCost_cons_cons]
        linarith
      · right
        refine ⟨f, w, hfm, ?_⟩
        rw [pathCost_cons_cons]
        linarith

theorem reach_scored {m : PathfindingMap} {start goal : Coord} {s : AState}
    (hempty : s.openSet = []) (hinv : AInv m start goal s) :
    ∀ (p : List Coord) (a v : Coord) (qa : ℚ), ValidPath m a v p →
      alookup s.gScore a = some qa → ∃ q, alookup s.gScore v = some q := by
  intro p
  induction p with
  | nil =>
    intro a v qa hvp _
    exact absurd hvp (fun h => validPath_not_nil h)
  | cons x t ih =>
    intro a v qa hvp hqa
    cases t with
    | nil =>
      obtain ⟨ha, hv⟩ := validPath_single hvp
      refine ⟨qa, ?_⟩
      rw [hv, ← ha]
      exact hqa
    | cons y t2 =>
      obtain ⟨_, hstep, hrest⟩ := validPath_cons_cons hvp
      rcases hinv.2 a qa hqa with ⟨f, hfmem, _⟩ | hrel
      · rw [hempty] at hfmem
        cases hfmem
      · obtain ⟨qy, hqy, _⟩ := hrel y hstep
        exact ih y v qy hrest hqy

theorem loop_sound {m : PathfindingMap} {start goal : Coord}
    (Hcost : ∀ c, 1 ≤ m.get_cost c)
    (Hadj : ∀ c n, n ∈ m.get_neighbors c → manhattan c n = 1) :
    ∀ (fuel : ℕ) (s : AState) (res : List Coord),
      AInv m start goal s → loop m goal fuel s = some res →
      (res = [] → ¬ Reachable m start goal) ∧
      (res ≠ [] → ValidPath m start goal res ∧
        ∀ p, ValidPath m start goal p → pathCost m res ≤ pathCost m p) := by
  intro fuel
  induction fuel with
  | zero =>
    intro s res _ hloop
    simp only [loop] at hloop
    exact Option.noConfusion hloop
  | succ fuel ih =>
    intro s res hinv hloop
    simp only [loop] at hloop
    cases hpop : popMin s.openSet with
    | none =>
      rw [hpop] at hloop
      simp only [] at hloop
      have hres : res = [] := (Option.some.inj hloop).symm
      subst hres
      constructor
      · intro _ hreach
        obtain ⟨p, hp⟩ := hreach
        have hempty : s.openSet = [] := popMin_eq_none.mp hpop
        obtain ⟨q, hq⟩ := reach_scored hempty hinv p start goal 0 hp hinv.1.gstart
        obtain ⟨f, hf⟩ := hinv.1.goal_entry q hq
        rw [hempty] at hf
        cases hf
      · intro hne
        exact absurd rfl hne
    | some pr =>
      obtain ⟨e, rest⟩ := pr
      rw [hpop] at hloop
      simp only [] at hloop
      by_cases hg : e.2 = goal
      · rw [if_pos hg] at hloop
        have hres : res = reconstruct_path s.cameFrom e.2 := (Option.some.inj hloop).symm
        have hmem : e ∈ s.openSet := popMin_mem hpop
        have hmem2 : (e.1, goal) ∈ s.openSet := by rw [← hg, Prod.mk.eta]; exact hmem
        obtain ⟨gg, hgg, hggle⟩ := hinv.1.open_goal e.1 hmem2
        have hge2 : alookup s.gScore e.2 = some gg := by rw [hg]; exact hgg
        obtain ⟨hvp, hpc⟩ := reconstruct_path_spec hinv.1.gstart hinv.1.cf_edge
          hinv.1.cf_dom Hcost hge2
        constructor
        · intro h0
          exfalso
          rw [hres] at h0
          unfold reconstruct_path at h0
          simp at h0
        · intro _
          constructor
          · rw [hres, ← hg]
            exact hvp
          · intro p hp
            rw [hres]
            have hle2 : gg ≤ pathCost m p := by
              cases p with
              | nil => exact absurd hp (fun h => validPath_not_nil h)
              | cons x t =>
                have hx : x = start := by
                  rcases hp with ⟨h1, _, _⟩
                  simpa using h1
                subst hx
                rcases frontier_aux Hcost Hadj hinv t x 0 hp hinv.1.gstart with
                  ⟨q2, hq2, hle3⟩ | ⟨f, w, hfm, hfle⟩
                · have hq2g : q2 = gg := Option.some.inj (hq2.symm.trans hgg)
                  rw [← hq2g]
                  linarith
                · have hmin : e.1 ≤ f := popMin_min hpop (f, w) hfm
                  linarith
            exact le_trans hpc hle2
      · rw [if_neg hg] at hloop
        exact ih _ res (step_AInv Hcost hpop hg hinv) hloop

/-! Termination of the search on a finitely closed neighborhood.  Every
stored g score is the cost of a valid path inside the neighborhood N and is
bounded by |N| times a cost bound, so scores live in a finite pool of path
costs; every heap push strictly decreases a node's remaining capacity in the
pool, giving a decreasing measure. -/

theorem mem_keys_scored {K V : Type} [DecidableEq K] {l : List (K × V)} {k : K}
    (h : k ∈ l.map Prod.fst) : ∃ v, alookup l k = some v := by
  cases hl : alookup l k with
  | none => exact absurd h (alookup_eq_none.mp hl)
  | some v => exact ⟨v, rfl⟩

/-- All lists over N of length at most k: a finite pool containing every
path the search can record. -/
def listsLE (N : Finset Coord) : ℕ → Finset (List Coord)
  | 0 => {[]}
  | k + 1 => {[]} ∪ N.biUnion (fun a => (listsLE N k).image (fun l => a :: l))

theorem mem_listsLE {N : Finset Coord} : ∀ {k : ℕ} {l : List Coord},
    (∀ x ∈ l, x ∈ N) → l.length ≤ k → l ∈ listsLE N k := by
  intro k
  induction k with
  | zero =>
    intro l hx hl
    rw [Nat.le_zero, List.length_eq_zero] at hl
    subst hl
    simp [listsLE]
  | succ k ih =>
    intro l hx hl
    cases l with
    | nil => simp [listsLE]
    | cons a t =>
      simp only [listsLE, Finset.mem_union, Finset.mem_biUnion]
      right
      refine ⟨a, hx a (by simp), ?_⟩
      rw [Finset.mem_image]
      refine ⟨t, ih (fun x hx2 => hx x (List.mem_cons_of_mem a hx2)) ?_, rfl⟩
      simp only [List.length_cons] at hl
      omega

/-- A bound on the traversal cost of the cells of N: the sum of the distinct
costs that occur on N. -/
def maxCostOf (m : PathfindingMap) (N : Finset Coord) : ℚ := (N.image m.get_cost).sum id

theorem maxCostOf_nonneg {m : PathfindingMap} {N : Finset Coord}
    (Hcost : ∀ c, 1 ≤ m.get_cost c) : 0 ≤ maxCostOf m N := by
  apply Finset.sum_nonneg
  intro v hv
  rw [Finset.mem_image] at hv
  obtain ⟨c2, _, hc2⟩ := hv
  have h1 := Hcost c2
  simp only [id]
  rw [← hc2]
  linarith

theorem le_maxCostOf {m : PathfindingMap} {N : Finset Coord}
    (Hcost : ∀ c, 1 ≤ m.get_cost c) {c : Coord} (hc : c ∈ N) :
    m.get_cost c ≤ maxCostOf m N := by
  have hmem : m.get_cost c ∈ N.image m.get_cost := Finset.mem_image_of_mem _ hc
  have h2 : id (m.get_cost c) ≤ (N.image m.get_cost).sum id := by
    apply Finset.single_le_sum ?_ hmem
    intro v hv
    rw [Finset.mem_image] at hv
    obtain ⟨c2, _, hc2⟩ := hv
    have h1 := Hcost c2
    simp only [id]
    rw [← hc2]
    linarith
  exact h2

def lengthBound (m : PathfindingMap) (N : Finset Coord) : ℕ :=
  Nat.ceil ((N.card : ℚ) * maxCostOf m N) + 1

/-- The finite pool of scores: costs of candidate paths inside N. -/
def valuePool (m : PathfindingMap) (N : Finset Coord) : Finset ℚ :=
  (listsLE N (lengthBound m N)).image (pathCost m)

/-- Termination bookkeeping for the g scores. -/
structure TInv (m : PathfindingMap) (start : Coord) (N : Finset Coord) (s : AState) :
    Prop where
  gN : ∀ n q, alookup s.gScore n = some q → n ∈ N
  gnodup : (s.gScore.map Prod.fst).Nodup
  gpath : ∀ n q, alookup s.gScore n = some q →
    ∃ p, ValidPath m start n p ∧ pathCost m p = q ∧ ∀ x ∈ p, x ∈ N
  gbound : ∀ n q, alookup s.gScore n = some q →
    q ≤ (s.gScore.length : ℚ) * maxCostOf m N

theorem gScore_card_le {N : Finset Coord} {s : AState}
    (hN : ∀ n q, alookup s.gScore n = some q → n ∈ N)
    (hnd : (s.gScore.map Prod.fst).Nodup) : s.gScore.length ≤ N.card := by
  have h1 : (s.gScore.map Prod.fst).toFinset.card = (s.gScore.map Prod.fst).length :=
    List.toFinset_card_of_nodup hnd
  have h2 : (s.gScore.map Prod.fst).toFinset ⊆ N := by
    intro x hx
    rw [List.mem_toFinset] at hx
    obtain ⟨v, hv⟩ := mem_keys_scored hx
    exact hN x v hv
  have h3 := Finset.card_le_card h2
  rw [h1] at h3
  simpa using h3

theorem stored_in_pool {m : PathfindingMap} {start : Coord} {N : Finset Coord}
    {s : AState} (Hcost : ∀ c, 1 ≤ m.get_cost c) (ht : TInv m start N s)
    {n : Coord} {q : ℚ} (hq : alookup s.gScore n = some q) : q ∈ valuePool m N := by
  obtain ⟨p, hvp, hpc, hpN⟩ := ht.gpath n q hq
  have hbound := ht.gbound n q hq
  have hlen : s.gScore.length ≤ N.card := gScore_card_le ht.gN ht.gnodup
  have hMC0 : 0 ≤ maxCostOf m N := maxCostOf_nonneg Hcost
  have hqC : q ≤ (N.card : ℚ) * maxCostOf m N := by
    have h4 : (s.gScore.length : ℚ) ≤ (N.card : ℚ) := by exact_mod_cast hlen
    nlinarith
  have hpne : p ≠ [] := by
    intro h0
    rw [h0] at hvp
    exact validPath_not_nil hvp
  have hplen : (p.length : ℚ) ≤ q + 1 := by
    have h5 := length_le_pathCost_add_one Hcost hpne
    rw [hpc] at h5
    exact h5
  have hplen2 : p.length ≤ lengthBound m N := by
    unfold lengthBound
    have h6 := Nat.le_ceil ((N.card : ℚ) * maxCostOf m N)
    have h7 : (p.length : ℚ) ≤ (Nat.ceil ((N.card : ℚ) * maxCostOf m N) : ℚ) + 1 := by
      linarith
    exact_mod_cast h7
  unfold valuePool
  rw [Finset.mem_image]
  exact ⟨p, mem_listsLE hpN hplen2, hpc⟩

theorem relax_TInv {m : PathfindingMap} {start goal : Coord} {N : Finset Coord}
    {s : AState} {cur nb : Coord} {qc : ℚ}
    (Hcost : ∀ c, 1 ≤ m.get_cost c)
    (hclosed : ∀ c ∈ N, ∀ x ∈ m.get_neighbors c, x ∈ N)
    (hnbr : nb ∈ m.get_neighbors cur)
    (hqc : alookup s.gScore cur = some qc)
    (ht : TInv m start N s) : TInv m start N (relax m goal cur s nb) := by
  rcases relax_cases m goal cur s nb with ⟨heq, _⟩ | ⟨hlt, heq⟩
  · rw [heq]
    exact ht
  · have hgd : (alookup s.gScore cur).getD 0 = qc := by rw [hqc]; rfl
    have hcurN : cur ∈ N := ht.gN cur qc hqc
    have hnbN : nb ∈ N := hclosed cur hcurN nb hnbr
    have hMC : m.get_cost nb ≤ maxCostOf m N := le_maxCostOf Hcost hnbN
    have hMC0 : 0 ≤ maxCostOf m N := maxCostOf_nonneg Hcost
    rw [heq]
    refine ⟨?_, ?_, ?_, ?_⟩
    · intro n q
      show alookup (aset s.gScore nb _) n = some q → n ∈ N
      rw [alookup_aset]
      by_cases h : nb = n
      · rw [if_pos h]
        intro _
        rw [← h]
        exact hnbN
      · rw [if_neg h]
        exact ht.gN n q
    · exact aset_keys_nodup ht.gnodup
    · intro n q
      show alookup (aset s.gScore nb _) n = some q → _
      rw [alookup_aset]
      by_cases h : nb = n
      · rw [if_pos h]
        intro hq
        cases hq
        obtain ⟨p, hvp, hpc, hpN⟩ := ht.gpath cur qc hqc
        have hpne : p ≠ [] := by
          intro h0
          rw [h0] at hvp
          exact validPath_not_nil hvp
        refine ⟨p ++ [n], ?_, ?_, ?_⟩
        · apply validPath_snoc hvp
          rw [← h]
          exact hnbr
        · rw [pathCost_snoc m hpne, hpc, hgd, ← h]
        · intro x hx
          rcases List.mem_append.mp hx with h1 | h1
          · exact hpN x h1
          · rw [List.mem_singleton.mp h1, ← h]
            exact hnbN
      · rw [if_neg h]
        exact ht.gpath n q
    · intro n q
      show alookup (aset s.gScore nb _) n = some q →
        q ≤ ((aset s.gScore nb ((alookup s.gScore cur).getD 0 + m.get_cost nb)).length : ℚ) *
          maxCostOf m N
      rw [alookup_aset]
      cases hnb0 : alookup s.gScore nb with
      | none =>
        have hlen := aset_length_of_none
          ((alookup s.gScore cur).getD 0 + m.get_cost nb) hnb0
        rw [hlen]
        by_cases h : nb = n
        · rw [if_pos h]
          intro hq
          cases hq
          have hb1 := ht.gbound cur qc hqc
          rw [hgd]
          push_cast
          nlinarith
        · rw [if_neg h]
          intro hq
          have hb1 := ht.gbound n q hq
          push_cast
          nlinarith
      | some w =>
        have hlen : (aset s.gScore nb
            ((alookup s.gScore cur).getD 0 + m.get_cost nb)).length = s.gScore.length :=
          aset_length_of_some hnb0
        rw [hlen]
        by_cases h : nb = n
        · rw [if_pos h]
          intro hq
          cases hq
          have hb1 := ht.gbound nb w hnb0
          have h2 := hlt w hnb0
          linarith
        · rw [if_neg h]
          intro hq
          exact ht.gbound n q hq

theorem alookup_singleton {K V : Type} [DecidableEq K] (k : K) (v : V) (x : K) :
    alookup [(k, v)] x = if k = x then some v else none := by
  simp [alookup]

/-- Remaining decrease capacity of one node against the finite score pool. -/
def capAt (VP : Finset ℚ) (g : List (Coord × ℚ)) (n : Coord) : ℕ :=
  match alookup g n with
  | none => VP.card
  | some q => (VP.filter (fun v => v < q)).card

def measureOf (VP : Finset ℚ) (N : Finset Coord) (g : List (Coord × ℚ)) : ℕ :=
  N.sum (capAt VP g)

theorem capAt_of_none {VP : Finset ℚ} {g : List (Coord × ℚ)} {n : Coord}
    (h : alookup g n = none) : capAt VP g n = VP.card := by
  unfold capAt
  rw [h]

theorem capAt_of_some {VP : Finset ℚ} {g : List (Coord × ℚ)} {n : Coord} {q : ℚ}
    (h : alookup g n = some q) : capAt VP g n = (VP.filter (fun v => v < q)).card := by
  unfold capAt
  rw [h]

theorem capAt_update_self_lt {VP : Finset ℚ} {g : List (Coord × ℚ)} {nb : Coord} {t : ℚ}
    (htVP : t ∈ VP) (hlt : ∀ q, alookup g nb = some q → t < q) :
    capAt VP (aset g nb t) nb < capAt VP g nb := by
  have hnew : alookup (aset g nb t) nb = some t := alookup_aset_self g nb t
  rw [capAt_of_some hnew]
  cases hold : alookup g nb with
  | none =>
    rw [capAt_of_none hold]
    apply Finset.card_lt_card
    rw [Finset.ssubset_iff_of_subset (Finset.filter_subset _ _)]
    exact ⟨t, htVP, by simp⟩
  | some q =>
    rw [capAt_of_some hold]
    have hq := hlt q hold
    apply Finset.card_lt_card
    rw [Finset.ssubset_iff_of_subset ?_]
    · exact ⟨t, by rw [Finset.mem_filter]; exact ⟨htVP, hq⟩, by simp⟩
    · intro v hv
      rw [Finset.mem_filter] at hv ⊢
      exact ⟨hv.1, lt_trans hv.2 hq⟩

theorem capAt_update_other {VP : Finset ℚ} {g : List (Coord × ℚ)} {nb : Coord} {t : ℚ}
    {x : Coord} (h : nb ≠ x) : capAt VP (aset g nb t) x = capAt VP g x := by
  unfold capAt
  rw [alookup_aset, if_neg h]

theorem measureOf_update_lt {VP : Finset ℚ} {N : Finset Coord} {g : List (Coord × ℚ)}
    {nb : Coord} {t : ℚ} (hnbN : nb ∈ N) (htVP : t ∈ VP)
    (hlt : ∀ q, alookup g nb = some q → t < q) :
    measureOf VP N (aset g nb t) < measureOf VP N g := by
  unfold measureOf
  apply Finset.sum_lt_sum
  · intro i hi
    by_cases h : nb = i
    · rw [← h]
      exact le_of_lt (capAt_update_self_lt htVP hlt)
    · rw [capAt_update_other h]
  · exact ⟨nb, hnbN, capAt_update_self_lt htVP hlt⟩

theorem relax_measure {m : PathfindingMap} {start goal : Coord} {N : Finset Coord}
    {s : AState} {cur nb : Coord} {qc : ℚ}
    (Hcost : ∀ c, 1 ≤ m.get_cost c)
    (hclosed : ∀ c ∈ N, ∀ x ∈ m.get_neighbors c, x ∈ N)
    (hnbr : nb ∈ m.get_neighbors cur)
    (hqc : alookup s.gScore cur = some qc)
    (ht : TInv m start N s) :
    relax m goal cur s nb = s ∨
      measureOf (valuePool m N) N (relax m goal cur s nb).gScore <
        measureOf (valuePool m N) N s.gScore := by
  rcases relax_cases m goal cur s nb with ⟨heq, _⟩ | ⟨hlt, heq⟩
  · left
    exact heq
  · right
    have ht2 : TInv m start N (relax m goal cur s nb) :=
      relax_TInv Hcost hclosed hnbr hqc ht
    have hnew : alookup (relax m goal cur s nb).gScore nb
        = some ((alookup s.gScore cur).getD 0 + m.get_cost nb) := by
      rw [heq]
      exact alookup_aset_self _ _ _
    have htVP := stored_in_pool Hcost ht2 hnew
    have hnbN : nb ∈ N := hclosed cur (ht.gN cur qc hqc) nb hnbr
    rw [heq]
    exact measureOf_update_lt hnbN htVP hlt

theorem foldl_relax_measure {m : PathfindingMap} {start goal cur : Coord} {N : Finset Coord}
    (Hcost : ∀ c, 1 ≤ m.get_cost c)
    (hclosed : ∀ c ∈ N, ∀ x ∈ m.get_neighbors c, x ∈ N) :
    ∀ (L : List Coord) (s : AState) (qc : ℚ),
      alookup s.gScore cur = some qc →
      (∀ nb ∈ L, nb ∈ m.get_neighbors cur) →
      TInv m start N s →
      TInv m start N (L.foldl (relax m goal cur) s) ∧
      (L.foldl (relax m goal cur) s = s ∨
        measureOf (valuePool m N) N (L.foldl (relax m goal cur) s).gScore <
          measureOf (valuePool m N) N s.gScore) := by
  intro L
  induction L with
  | nil =>
    intro s qc hqc hL ht
    exact ⟨ht, Or.inl rfl⟩
  | cons a L ih =>
    intro s qc hqc hL ht
    have ha : a ∈ m.get_neighbors cur := hL a (List.mem_cons_self a L)
    have ht1 : TInv m start N (relax m goal cur s a) :=
      relax_TInv Hcost hclosed ha hqc ht
    have hq1 : alookup (relax m goal cur s a).gScore cur = some qc := relax_cur_eq Hcost hqc
    obtain ⟨ht2, hd2⟩ := ih (relax m goal cur s a) qc hq1
      (fun nb hnb => hL nb (List.mem_cons_of_mem a hnb)) ht1
    simp only [List.foldl_cons]
    refine ⟨ht2, ?_⟩
    rcases relax_measure Hcost hclosed ha hqc ht with heq | hlt
    · rw [heq] at hd2 ⊢
      exact hd2
    · rcases hd2 with heq2 | hlt2
      · rw [heq2]
        right
        exact hlt
      · right
        exact lt_trans hlt2 hlt

theorem init_AInv {m : PathfindingMap} {start goal : Coord} (hsg : start ≠ goal) :
    AInv m start goal { openSet := [(0, start)], cameFrom := [], gScore := [(start, 0)] } := by
  constructor
  · refine ⟨?_, ?_, ?_, ?_, ?_, ?_, ?_, ?_⟩
    · show alookup [(start, (0 : ℚ))] start = some 0
      rw [alookup_singleton, if_pos rfl]
    · intro n q hq
      have hq2 : alookup [(start, (0 : ℚ))] n = some q := hq
      rw [alookup_singleton] at hq2
      by_cases h : start = n
      · rw [if_pos h] at hq2
        cases hq2
        exact le_refl 0
      · rw [if_neg h] at hq2
        exact Option.noConfusion hq2
    · intro f n hmem
      have hmem2 : (f, n) ∈ [((0 : ℚ), start)] := hmem
      injection List.mem_singleton.mp hmem2 with hf hn
      refine ⟨0, ?_⟩
      show alookup [(start, (0 : ℚ))] n = some 0
      rw [alookup_singleton, if_pos hn.symm]
    · intro f hmem
      have hmem2 : (f, goal) ∈ [((0 : ℚ), start)] := hmem
      injection List.mem_singleton.mp hmem2 with hf hn
      exact absurd hn.symm hsg
    · rfl
    · intro n c hc
      exact Option.noConfusion hc
    · intro n hns hsc
      obtain ⟨q, hq⟩ := hsc
      have hq2 : alookup [(start, (0 : ℚ))] n = some q := hq
      rw [alookup_singleton] at hq2
      by_cases h : start = n
      · exact absurd h.symm hns
      · rw [if_neg h] at hq2
        exact Option.noConfusion hq2
    · intro q hq
      have hq2 : alookup [(start, (0 : ℚ))] goal = some q := hq
      rw [alookup_singleton] at hq2
      by_cases h : start = goal
      · exact absurd h hsg
      · rw [if_neg h] at hq2
        exact Option.noConfusion hq2
  · intro n q hq
    have hq2 : alookup [(start, (0 : ℚ))] n = some q := hq
    rw [alookup_singleton] at hq2
    by_cases h : start = n
    · rw [if_pos h] at hq2
      cases hq2
      left
      refine ⟨0, ?_, ?_⟩
      · show ((0 : ℚ), n) ∈ [((0 : ℚ), start)]
        rw [← h]
        exact List.mem_singleton_self _
      · have h2 := manhattan_nonneg n goal
        linarith
    · rw [if_neg h] at hq2
      exact Option.noConfusion hq2

theorem init_TInv {m : PathfindingMap} {start : Coord} {N : Finset Coord} (hsN : start ∈ N)
    (Hcost : ∀ c, 1 ≤ m.get_cost c) :
    TInv m start N { openSet := [(0, start)], cameFrom := [], gScore := [(start, 0)] } := by
  refine ⟨?_, ?_, ?_, ?_⟩
  · intro n q hq
    have hq2 : alookup [(start, (0 : ℚ))] n = some q := hq
    rw [alookup_singleton] at hq2
    by_cases h : start = n
    · rw [← h]
      exact hsN
    · rw [if_neg h] at hq2
      exact Option.noConfusion hq2
  · show (([(start, (0 : ℚ))] : List (Coord × ℚ)).map Prod.fst).Nodup
    simp
  · intro n q hq
    have hq2 : alookup [(start, (0 : ℚ))] n = some q := hq
    rw [alookup_singleton] at hq2
    by_cases h : start = n
    · rw [if_pos h] at hq2
      cases hq2
      refine ⟨[n], ?_, pathCost_single m n, ?_⟩
      · rw [h]
        exact validPath_singleton m n
      · intro x hx
        rw [List.mem_singleton.mp hx, ← h]
        exact hsN
    · rw [if_neg h] at hq2
      exact Option.noConfusion hq2
  · intro n q hq
    have hq2 : alookup [(start, (0 : ℚ))] n = some q := hq
    rw [alookup_singleton] at hq2
    by_cases h : start = n
    · rw [if_pos h] at hq2
      cases hq2
      have hMC : 0 ≤ maxCostOf m N := maxCostOf_nonneg Hcost
      show (0 : ℚ) ≤ (([(start, (0 : ℚ))] : List (Coord × ℚ)).length : ℚ) * maxCostOf m N
      have hlen : ((([(start, (0 : ℚ))] : List (Coord × ℚ)).length : ℕ) : ℚ) = 1 := by
        norm_num
      rw [hlen]
      linarith
    · rw [if_neg h] at hq2
      exact Option.noConfusion hq2

theorem loop_term {m : PathfindingMap} {start goal : Coord} {N : Finset Coord}
    (Hcost : ∀ c, 1 ≤ m.get_cost c)
    (hclosed : ∀ c ∈ N, ∀ x ∈ m.get_neighbors c, x ∈ N) :
    ∀ (a b : ℕ) (s : AState),
      measureOf (valuePool m N) N s.gScore < a → s.openSet.length < b →
      AInv m start goal s → TInv m start N s →
      ∃ fuel res, loop m goal fuel s = some res := by
  intro a
  induction a with
  | zero =>
    intro b s hma
    exact absurd hma (Nat.not_lt_zero _)
  | succ a iha =>
    intro b
    induction b with
    | zero =>
      intro s _ hlb
      exact absurd hlb (Nat.not_lt_zero _)
    | succ b ihb =>
      intro s hma hlb hainv htinv
      cases hpop : popMin s.openSet with
      | none =>
        refine ⟨1, [], ?_⟩
        simp only [loop, hpop]
      | some pr =>
        obtain ⟨e, rest⟩ := pr
        by_cases hg : e.2 = goal
        · refine ⟨1, reconstruct_path s.cameFrom e.2, ?_⟩
          simp only [loop, hpop]
          rw [if_pos hg]
        · have hainv2 := step_AInv Hcost hpop hg hainv
          have htmid : TInv m start N { s with openSet := rest } :=
            ⟨htinv.gN, htinv.gnodup, htinv.gpath, htinv.gbound⟩
          have hmem : e ∈ s.openSet := popMin_mem hpop
          obtain ⟨qc, hqc⟩ := hainv.1.open_scored e.1 e.2 (by rw [Prod.mk.eta]; exact hmem)
          have hqc2 : alookup ({ s with openSet := rest } : AState).gScore e.2 = some qc := hqc
          obtain ⟨htinv2, hdich⟩ := foldl_relax_measure Hcost hclosed (m.get_neighbors e.2)
            { s with openSet := rest } qc hqc2 (fun nb hnb => hnb) htmid
          have htinv2a : TInv m start N
              (processNeighbors m goal e.2 { s with openSet := rest }) := htinv2
          have hrl : s.openSet.length = rest.length + 1 := by
            have hperm := (popMin_perm hpop).length_eq
            simpa using hperm
          rcases hdich with heq2 | hlt2
          · have hs2 : processNeighbors m goal e.2 { s with openSet := rest }
                = { s with openSet := rest } := heq2
            have hmu : measureOf (valuePool m N) N (processNeighbors m goal e.2
                { s with openSet := rest }).gScore < a + 1 := by
              rw [hs2]
              exact hma
            have hlen2 : (processNeighbors m goal e.2
                { s with openSet := rest }).openSet.length < b := by
              rw [hs2]
              show rest.length < b
              omega
            obtain ⟨fuel, res, hl⟩ := ihb (processNeighbors m goal e.2
              { s with openSet := rest }) hmu hlen2 hainv2 htinv2a
            exact ⟨fuel + 1, res, by simp only [loop, hpop]; rw [if_neg hg]; exact hl⟩
          · have h2 : measureOf (valuePool m N) N
                (processNeighbors m goal e.2 { s with openSet := rest }).gScore <
                measureOf (valuePool m N) N s.gScore := hlt2
            have hmu : measureOf (valuePool m N) N (processNeighbors m goal e.2
                { s with openSet := rest }).gScore < a := by omega
            obtain ⟨fuel, res, hl⟩ := iha ((processNeighbors m goal e.2
              { s with openSet := rest }).openSet.length + 1)
              (processNeighbors m goal e.2 { s with openSet := rest }) hmu
              (Nat.lt_succ_self _) hainv2 htinv2a
            exact ⟨fuel + 1, res, by simp only [loop, hpop]; rw [if_neg hg]; exact hl⟩

theorem find_path_terminates {m : PathfindingMap} {start goal : Coord} {N : Finset Coord}
    (Hcost : ∀ c, 1 ≤ m.get_cost c) (hsN : start ∈ N)
    (hclosed : ∀ c ∈ N, ∀ x ∈ m.get_neighbors c, x ∈ N) :
    ∃ fuel res, find_path m start goal fuel = some res := by
  by_cases hsg : start = goal
  · exact ⟨0, [start], by simp [find_path, hsg]⟩
  · obtain ⟨fuel, res, hl⟩ := loop_term Hcost hclosed
      (measureOf (valuePool m N) N
        (({ openSet := [(0, start)], cameFrom := [], gScore := [(start, 0)] } : AState)).gScore + 1)
      2 { openSet := [(0, start)], cameFrom := [], gScore := [(start, 0)] }
      (Nat.lt_succ_self _) (by simp) (init_AInv hsg) (init_TInv hsN Hcost)
    refine ⟨fuel, res, ?_⟩
    simp only [find_path]
    rw [if_neg hsg]
    exact hl

/-- C1: AStar.find_path, run against any map oracle whose neighbor
enumeration yields 4-adjacent cells (every enumerated neighbor is at
Manhattan distance one) and whose per-cell traversal cost is at least 1,
returns [start] whenever start = goal; whenever the search finishes, the
returned sequence is empty exactly when goal is unreachable through the
neighbor relation, and a non-empty result starts at start, ends at goal,
steps only between oracle neighbors and has minimal total cost among all
such sequences; and on any finite neighborhood of start that is closed
under neighbor enumeration, some fuel finishes the search. -/
theorem C1_astar_find_path_correct (m : PathfindingMap) (start goal : Coord)
    (Hcost : ∀ c, 1 ≤ m.get_cost c)
    (Hadj : ∀ c n, n ∈ m.get_neighbors c → manhattan c n = 1) :
    (start = goal → ∀ fuel, find_path m start goal fuel = some [start]) ∧
    (∀ fuel res, find_path m start goal fuel = some res →
      (res = [] ↔ ¬ Reachable m start goal) ∧
      (res ≠ [] → ValidPath m start goal res ∧
        ∀ p, ValidPath m start goal p → pathCost m res ≤ pathCost m p)) ∧
    (∀ N : Finset Coord, start ∈ N → (∀ c ∈ N, ∀ x ∈ m.get_neighbors c, x ∈ N) →
      ∃ fuel res, find_path m start goal fuel = some res) := by
  refine ⟨?_, ?_, ?_⟩
  · intro hsg fuel
    simp [find_path, hsg]
  · intro fuel res hres
    by_cases hsg : start = goal
    · subst hsg
      simp only [find_path] at hres
      rw [if_pos trivial] at hres
      have hres2 : res = [start] := (Option.some.inj hres).symm
      subst hres2
      constructor
      · constructor
        · intro h0
          exact absurd h0 (by simp)
        · intro hnr
          exact absurd ⟨[start], validPath_singleton m start⟩ hnr
      · intro _
        refine ⟨validPath_singleton m start, ?_⟩
        intro p _
        rw [pathCost_single]
        exact pathCost_nonneg Hcost p
    · simp only [find_path] at hres
      rw [if_neg hsg] at hres
      have hsound := loop_sound Hcost Hadj fuel _ res (init_AInv hsg) hres
      constructor
      · constructor
        · exact hsound.1
        · intro hnr
          by_contra hne
          exact hnr ⟨res, (hsound.2 hne).1⟩
      · exact hsound.2
  · intro N hsN hclosed
    exact find_path_terminates Hcost hsN hclosed

/-- A two-cell corridor oracle used to witness the A-star theorem. -/
def c1Map : PathfindingMap :=
  { get_neighbors := fun c =>
      if c = ((0 : ℤ), (0 : ℤ)) then [((0 : ℤ), (1 : ℤ))]
      else if c = ((0 : ℤ), (1 : ℤ)) then [((0 : ℤ), (0 : ℤ))] else []
    get_cost := fun _ => 1 }

theorem c1Map_adj : ∀ c n, n ∈ c1Map.get_neighbors c → manhattan c n = 1 := by
  intro c n hn
  simp only [c1Map] at hn
  by_cases h0 : c = ((0 : ℤ), (0 : ℤ))
  · rw [if_pos h0] at hn
    rw [List.mem_singleton.mp hn, h0]
    norm_num [manhattan]
  · rw [if_neg h0] at hn
    by_cases h1 : c = ((0 : ℤ), (1 : ℤ))
    · rw [if_pos h1] at hn
      rw [List.mem_singleton.mp hn, h1]
      norm_num [manhattan]
    · rw [if_neg h1] at hn
      cases hn

theorem C1_witness :
    ∃ fuel res, find_path c1Map ((0 : ℤ), (0 : ℤ)) ((0 : ℤ), (1 : ℤ)) fuel = some res :=
  (C1_astar_find_path_correct c1Map ((0 : ℤ), (0 : ℤ)) ((0 : ℤ), (1 : ℤ))
      (fun c => le_refl 1) c1Map_adj).2.2
    {((0 : ℤ), (0 : ℤ)), ((0 : ℤ), (1 : ℤ))} (by decide)
    (by
      intro c hc x hx
      fin_cases hc
      · simp only [c1Map] at hx
        rw [if_pos trivial] at hx
        rw [List.mem_singleton.mp hx]
        decide
      · simp only [c1Map] at hx
        rw [if_pos trivial] at hx
        rw [List.mem_singleton.mp hx]
        decide)

/-! ## The pathfinder on World grids (claim C2). -/

theorem mem_world_neighbors {w : World} {x y : ℤ} {n : Coord} :
    n ∈ w.get_neighbors x y ↔
      ((n = (x - 1, y) ∨ n = (x + 1, y) ∨ n = (x, y - 1) ∨ n = (x, y + 1)) ∧
        0 ≤ n.1 ∧ n.1 < w.width ∧ 0 ≤ n.2 ∧ n.2 < w.height) := by
  unfold World.get_neighbors
  rw [List.mem_filterMap]
  constructor
  · rintro ⟨d, hd, hfd⟩
    simp only [List.mem_cons, List.not_mem_nil, or_false] at hd
    rcases hd with rfl | rfl | rfl | rfl
    · simp only [] at hfd
      by_cases hb : 0 ≤ x + (-1 : ℤ) ∧ x + (-1 : ℤ) < w.width ∧
          0 ≤ y + (0 : ℤ) ∧ y + (0 : ℤ) < w.height
      · rw [if_pos hb] at hfd
        have hn := Option.some.inj hfd
        obtain ⟨hb1, hb2, hb3, hb4⟩ := hb
        subst hn
        constructor
        · left
          show ((x + (-1 : ℤ), y + (0 : ℤ)) : Coord) = (x - 1, y)
          simp only [Prod.mk.injEq]
          constructor <;> ring
        · refine ⟨?_, ?_, ?_, ?_⟩ <;> simp only [] <;> omega
      · rw [if_neg hb] at hfd
        exact Option.noConfusion hfd
    · simp only [] at hfd
      by_cases hb : 0 ≤ x + (1 : ℤ) ∧ x + (1 : ℤ) < w.width ∧
          0 ≤ y + (0 : ℤ) ∧ y + (0 : ℤ) < w.height
      · rw [if_pos hb] at hfd
        have hn := Option.some.inj hfd
        obtain ⟨hb1, hb2, hb3, hb4⟩ := hb
        subst hn
        constructor
        · right
          left
          show ((x + (1 : ℤ), y + (0 : ℤ)) : Coord) = (x + 1, y)
          simp only [Prod.mk.injEq]
          constructor <;> ring
        · refine ⟨?_, ?_, ?_, ?_⟩ <;> simp only [] <;> omega
      · rw [if_neg hb] at hfd
        exact Option.noConfusion hfd
    · simp only [] at hfd
      by_cases hb : 0 ≤ x + (0 : ℤ) ∧ x + (0 : ℤ) < w.width ∧
          0 ≤ y + (-1 : ℤ) ∧ y + (-1 : ℤ) < w.height
      · rw [if_pos hb] at hfd
        have hn := Option.some.inj hfd
        obtain ⟨hb1, hb2, hb3, hb4⟩ := hb
        subst hn
        constructor
        · right
          right
          left
          show ((x + (0 : ℤ), y + (-1 : ℤ)) : Coord) = (x, y - 1)
          simp only [Prod.mk.injEq]
          constructor <;> ring
        · refine ⟨?_, ?_, ?_, ?_⟩ <;> simp only [] <;> omega
      · rw [if_neg hb] at hfd
        exact Option.noConfusion hfd
    · simp only [] at hfd
      by_cases hb : 0 ≤ x + (0 : ℤ) ∧ x + (0 : ℤ) < w.width ∧
          0 ≤ y + (1 : ℤ) ∧ y + (1 : ℤ) < w.height
      · rw [if_pos hb] at hfd
        have hn := Option.some.inj hfd
        obtain ⟨hb1, hb2, hb3, hb4⟩ := hb
        subst hn
        constructor
        · right
          right
          right
          show ((x + (0 : ℤ), y + (1 : ℤ)) : Coord) = (x, y + 1)
          simp only [Prod.mk.injEq]
          constructor <;> ring
        · refine ⟨?_, ?_, ?_, ?_⟩ <;> simp only [] <;> omega
      · rw [if_neg hb] at hfd
        exact Option.noConfusion hfd
  · rintro ⟨hform, hb1, hb2, hb3, hb4⟩
    rcases hform with rfl | rfl | rfl | rfl
    · refine ⟨((-1 : ℤ), (0 : ℤ)), by simp, ?_⟩
      simp only [] at hb1 hb2 hb3 hb4 ⊢
      have hb : 0 ≤ x + (-1 : ℤ) ∧ x + (-1 : ℤ) < w.width ∧
          0 ≤ y + (0 : ℤ) ∧ y + (0 : ℤ) < w.height := by
        refine ⟨?_, ?_, ?_, ?_⟩ <;> omega
      rw [if_pos hb]
      simp only [Option.some.injEq, Prod.mk.injEq]
      constructor <;> ring
    · refine ⟨((1 : ℤ), (0 : ℤ)), by simp, ?_⟩
      simp only [] at hb1 hb2 hb3 hb4 ⊢
      have hb : 0 ≤ x + (1 : ℤ) ∧ x + (1 : ℤ) < w.width ∧
          0 ≤ y + (0 : ℤ) ∧ y + (0 : ℤ) < w.height := by
        refine ⟨?_, ?_, ?_, ?_⟩ <;> omega
      rw [if_pos hb]
      simp only [Option.some.injEq, Prod.mk.injEq]
      constructor <;> ring
    · refine ⟨((0 : ℤ), (-1 : ℤ)), by simp, ?_⟩
      simp only [] at hb1 hb2 hb3 hb4 ⊢
      have hb : 0 ≤ x + (0 : ℤ) ∧ x + (0 : ℤ) < w.width ∧
          0 ≤ y + (-1 : ℤ) ∧ y + (-1 : ℤ) < w.height := by
        refine ⟨?_, ?_, ?_, ?_⟩ <;> omega
      rw [if_pos hb]
      simp only [Option.some.injEq, Prod.mk.injEq]
      constructor <;> ring
    · refine ⟨((0 : ℤ), (1 : ℤ)), by simp, ?_⟩
      simp only [] at hb1 hb2 hb3 hb4 ⊢
      have hb : 0 ≤ x + (0 : ℤ) ∧ x + (0 : ℤ) < w.width ∧
          0 ≤ y + (1 : ℤ) ∧ y + (1 : ℤ) < w.height := by
        refine ⟨?_, ?_, ?_, ?_⟩ <;> omega
      rw [if_pos hb]
      simp only [Option.some.injEq, Prod.mk.injEq]
      constructor <;> ring

/-- Every neighbor a World enumerates is 4-adjacent: the adjacency side
condition of the A-star theorems holds for every world. -/
theorem world_Hadj (w : World) :
    ∀ c n, n ∈ (w.toMap).get_neighbors c → manhattan c n = 1 := by
  intro c n hn
  have hn2 : n ∈ w.get_neighbors c.1 c.2 := hn
  rw [mem_world_neighbors] at hn2
  obtain ⟨hform, _⟩ := hn2
  rcases hform with rfl | rfl | rfl | rfl
  · unfold manhattan
    rw [show c.1 - (c.1 - 1) = 1 by ring, show c.2 - c.2 = 0 by ring]
    norm_num
  · unfold manhattan
    rw [show c.1 - (c.1 + 1) = -1 by ring, show c.2 - c.2 = 0 by ring]
    norm_num
  · unfold manhattan
    rw [show c.1 - c.1 = 0 by ring, show c.2 - (c.2 - 1) = 1 by ring]
    norm_num
  · unfold manhattan
    rw [show c.1 - c.1 = 0 by ring, show c.2 - (c.2 + 1) = -1 by ring]
    norm_num

def boundsFinset (w : World) : Finset Coord :=
  Finset.Ico 0 w.width ×ˢ Finset.Ico 0 w.height

theorem mem_boundsFinset {w : World} {c : Coord} :
    c ∈ boundsFinset w ↔ 0 ≤ c.1 ∧ c.1 < w.width ∧ 0 ≤ c.2 ∧ c.2 < w.height := by
  unfold boundsFinset
  rw [Finset.mem_product, Finset.mem_Ico, Finset.mem_Ico]
  tauto

theorem world_closed (w : World) :
    ∀ c ∈ boundsFinset w, ∀ x ∈ (w.toMap).get_neighbors c, x ∈ boundsFinset w := by
  intro c _ x hx
  have hx2 : x ∈ w.get_neighbors c.1 c.2 := hx
  rw [mem_world_neighbors] at hx2
  obtain ⟨_, h1, h2, h3, h4⟩ := hx2
  rw [mem_boundsFinset]
  exact ⟨h1, h2, h3, h4⟩

theorem world_step {w : World} {a b : Coord}
    (hb : 0 ≤ b.1 ∧ b.1 < w.width ∧ 0 ≤ b.2 ∧ b.2 < w.height)
    (hadj : b = (a.1 - 1, a.2) ∨ b = (a.1 + 1, a.2) ∨
      b = (a.1, a.2 - 1) ∨ b = (a.1, a.2 + 1)) : Step w.toMap a b := by
  show b ∈ w.get_neighbors a.1 a.2
  rw [mem_world_neighbors]
  exact ⟨hadj, hb⟩

theorem validPath_cons_step {m : PathfindingMap} {a b v : Coord} {p : List Coord}
    (hs : Step m a b) (hp : ValidPath m b v p) : ValidPath m a v (a :: p) := by
  rcases hp with ⟨h1, h2, h3⟩
  refine ⟨rfl, ?_, ?_⟩
  · cases p with
    | nil => exact Option.noConfusion h1
    | cons z t =>
      rw [List.getLast?_cons_cons]
      exact h2
  · cases p with
    | nil => exact Option.noConfusion h1
    | cons z t =>
      rw [List.chain'_cons]
      have hz : z = b := by simpa using h1
      exact ⟨by rw [hz]; exact hs, h3⟩

/-- Any two in-bounds cells are joined by a staircase path of length exactly
the Manhattan distance (the grid graph enumerated by World.get_neighbors
ignores walls, so only bounds matter). -/
theorem staircase {w : World} : ∀ (k : ℕ) (a b : Coord),
    (a.1 - b.1).natAbs + (a.2 - b.2).natAbs = k →
    0 ≤ a.1 → a.1 < w.width → 0 ≤ a.2 → a.2 < w.height →
    0 ≤ b.1 → b.1 < w.width → 0 ≤ b.2 → b.2 < w.height →
    ∃ p, ValidPath w.toMap a b p ∧ p.length = k + 1 := by
  intro k
  induction k with
  | zero =>
    intro a b hk ha1 ha2 ha3 ha4 hb1 hb2 hb3 hb4
    have hab : a = b := by
      have h1 : a.1 = b.1 := by omega
      have h2 : a.2 = b.2 := by omega
      exact Prod.ext h1 h2
    subst hab
    exact ⟨[a], validPath_singleton _ a, by simp⟩
  | succ k ih =>
    intro a b hk ha1 ha2 ha3 ha4 hb1 hb2 hb3 hb4
    by_cases hx : a.1 < b.1
    · obtain ⟨p, hp, hlen⟩ := ih (a.1 + 1, a.2) b
        (by show (a.1 + 1 - b.1).natAbs + (a.2 - b.2).natAbs = k; omega)
        (by show (0 : ℤ) ≤ a.1 + 1; omega) (by show a.1 + 1 < w.width; omega)
        (by show (0 : ℤ) ≤ a.2; omega) (by show a.2 < w.height; omega) hb1 hb2 hb3 hb4
      refine ⟨a :: p, ?_, ?_⟩
      · refine validPath_cons_step ?_ hp
        refine world_step ⟨?_, ?_, ?_, ?_⟩ (Or.inr (Or.inl rfl))
        · show (0 : ℤ) ≤ a.1 + 1
          omega
        · show a.1 + 1 < w.width
          omega
        · show (0 : ℤ) ≤ a.2
          omega
        · show a.2 < w.height
          omega
      · simp only [List.length_cons, hlen]
    · by_cases hx2 : b.1 < a.1
      · obtain ⟨p, hp, hlen⟩ := ih (a.1 - 1, a.2) b
          (by show (a.1 - 1 - b.1).natAbs + (a.2 - b.2).natAbs = k; omega)
          (by show (0 : ℤ) ≤ a.1 - 1; omega) (by show a.1 - 1 < w.width; omega)
          (by show (0 : ℤ) ≤ a.2; omega) (by show a.2 < w.height; omega) hb1 hb2 hb3 hb4
        refine ⟨a :: p, ?_, ?_⟩
        · refine validPath_cons_step ?_ hp
          refine world_step ⟨?_, ?_, ?_, ?_⟩ (Or.inl rfl)
          · show (0 : ℤ) ≤ a.1 - 1
            omega
          · show a.1 - 1 < w.width
            omega
          · show (0 : ℤ) ≤ a.2
            omega
          · show a.2 < w.height
            omega
        · simp only [List.length_cons, hlen]
      · by_cases hy : a.2 < b.2
        · obtain ⟨p, hp, hlen⟩ := ih (a.1, a.2 + 1) b
            (by show (a.1 - b.1).natAbs + (a.2 + 1 - b.2).natAbs = k; omega)
            (by show (0 : ℤ) ≤ a.1; omega) (by show a.1 < w.width; omega)
            (by show (0 : ℤ) ≤ a.2 + 1; omega) (by show a.2 + 1 < w.height; omega)
            hb1 hb2 hb3 hb4
          refine ⟨a :: p, ?_, ?_⟩
          · refine validPath_cons_step ?_ hp
            refine world_step ⟨?_, ?_, ?_, ?_⟩ (Or.inr (Or.inr (Or.inr rfl)))
            · show (0 : ℤ) ≤ a.1
              omega
            · show a.1 < w.width
              omega
            · show (0 : ℤ) ≤ a.2 + 1
              omega
            · show a.2 + 1 < w.height
              omega
          · simp only [List.length_cons, hlen]
        · by_cases hy2 : b.2 < a.2
          · obtain ⟨p, hp, hlen⟩ := ih (a.1, a.2 - 1) b
              (by show (a.1 - b.1).natAbs + (a.2 - 1 - b.2).natAbs = k; omega)
              (by show (0 : ℤ) ≤ a.1; omega) (by show a.1 < w.width; omega)
              (by show (0 : ℤ) ≤ a.2 - 1; omega) (by show a.2 - 1 < w.height; omega)
              hb1 hb2 hb3 hb4
            refine ⟨a :: p, ?_, ?_⟩
            · refine validPath_cons_step ?_ hp
              refine world_step ⟨?_, ?_, ?_, ?_⟩ (Or.inr (Or.inr (Or.inl rfl)))
              · show (0 : ℤ) ≤ a.1
                omega
              · show a.1 < w.width
                omega
              · show (0 : ℤ) ≤ a.2 - 1
                omega
              · show a.2 - 1 < w.height
                omega
            · simp only [List.length_cons, hlen]
          · exfalso
            omega

theorem getD_mem_or {α : Type} (l : List α) (i : ℕ) (d : α) :
    l.getD i d ∈ l ∨ l.getD i d = d := by
  induction l generalizing i with
  | nil =>
    right
    rfl
  | cons x t ih =>
    cases i with
    | zero =>
      left
      simp
    | succ j =>
      simp only [List.getD_cons_succ]
      rcases ih j with h | h
      · exact Or.inl (List.mem_cons_of_mem x h)
      · exact Or.inr h

theorem world_get_cost_ge_one {w : World}
    (hrows : ∀ r ∈ w.grid, ∀ t ∈ r, 1 ≤ t.cost) : ∀ x y, 1 ≤ w.get_cost x y := by
  intro x y
  unfold World.get_cost
  rcases getD_mem_or (w.grid.getD y.toNat []) x.toNat ⟨TerrainType.FLOOR, 1⟩ with h2 | h2
  · rcases getD_mem_or w.grid y.toNat [] with h | h
    · exact hrows _ h _ h2
    · rw [h] at h2
      cases h2
  · rw [h2]

theorem world_get_cost_one {w : World}
    (hrows : ∀ r ∈ w.grid, ∀ t ∈ r, t.cost = 1) : ∀ x y, w.get_cost x y = 1 := by
  intro x y
  unfold World.get_cost
  rcases getD_mem_or (w.grid.getD y.toNat []) x.toNat ⟨TerrainType.FLOOR, 1⟩ with h2 | h2
  · rcases getD_mem_or w.grid y.toNat [] with h | h
    · exact hrows _ h _ h2
    · rw [h] at h2
      cases h2
  · rw [h2]

theorem world_find_path_nonempty {w : World} {start goal : Coord}
    (Hcost : ∀ c, 1 ≤ (w.toMap).get_cost c)
    (hs1 : 0 ≤ start.1) (hs2 : start.1 < w.width)
    (hs3 : 0 ≤ start.2) (hs4 : start.2 < w.height)
    (hg1 : 0 ≤ goal.1) (hg2 : goal.1 < w.width)
    (hg3 : 0 ≤ goal.2) (hg4 : goal.2 < w.height) :
    ∃ fuel res, find_path w.toMap start goal fuel = some res ∧ res ≠ [] := by
  have hsN : start ∈ boundsFinset w := by
    rw [mem_boundsFinset]
    exact ⟨hs1, hs2, hs3, hs4⟩
  obtain ⟨p0, hp0, _⟩ := staircase ((start.1 - goal.1).natAbs + (start.2 - goal.2).natAbs)
    start goal rfl hs1 hs2 hs3 hs4 hg1 hg2 hg3 hg4
  have hreach : Reachable w.toMap start goal := ⟨p0, hp0⟩
  obtain ⟨fuel, res, hfp⟩ := find_path_terminates Hcost hsN (world_closed w)
  refine ⟨fuel, res, hfp, ?_⟩
  by_cases hsg : start = goal
  · subst hsg
    simp only [find_path] at hfp
    rw [if_pos trivial] at hfp
    have hres : res = [start] := (Option.some.inj hfp).symm
    rw [hres]
    simp
  · simp only [find_path] at hfp
    rw [if_neg hsg] at hfp
    have hsound := loop_sound Hcost (world_Hadj w) fuel _ res (init_AInv hsg) hfp
    intro h0
    exact (hsound.1 h0) hreach

/-- C2 amended: on a World grid with in-bounds start and goal and every tile
cost at least 1, the search always finishes with a NON-empty path, walls or
not, because World.get_neighbors enumerates wall cells like any other
in-bounds cell; and when every cell costs 1 (obstacle-free uniform grid) the
returned path has exactly the Manhattan distance many steps, that is,
Manhattan distance + 1 cells. -/
theorem C2_amended_world_paths (w : World) (start goal : Coord)
    (Hcost : ∀ c, 1 ≤ (w.toMap).get_cost c)
    (hs1 : 0 ≤ start.1) (hs2 : start.1 < w.width)
    (hs3 : 0 ≤ start.2) (hs4 : start.2 < w.height)
    (hg1 : 0 ≤ goal.1) (hg2 : goal.1 < w.width)
    (hg3 : 0 ≤ goal.2) (hg4 : goal.2 < w.height) :
    (∃ fuel res, find_path w.toMap start goal fuel = some res ∧ res ≠ []) ∧
    ((∀ c, (w.toMap).get_cost c = 1) →
      ∃ fuel res, find_path w.toMap start goal fuel = some res ∧
        (res.length : ℚ) = manhattan start goal + 1) := by
  constructor
  · exact world_find_path_nonempty Hcost hs1 hs2 hs3 hs4 hg1 hg2 hg3 hg4
  · intro huni
    have hsN : start ∈ boundsFinset w := by
      rw [mem_boundsFinset]
      exact ⟨hs1, hs2, hs3, hs4⟩
    obtain ⟨fuel, res, hfp⟩ := find_path_terminates Hcost hsN (world_closed w)
    refine ⟨fuel, res, hfp, ?_⟩
    have hpc : ∀ l : List Coord, pathCost w.toMap l = (l.tail.length : ℚ) := by
      intro l
      unfold pathCost
      have hsum : ∀ l2 : List Coord,
          (l2.map (w.toMap).get_cost).sum = (l2.length : ℚ) := by
        intro l2
        induction l2 with
        | nil => simp
        | cons z t ih =>
          simp only [List.map_cons, List.sum_cons, List.length_cons, ih, huni z]
          push_cast
          ring
      rw [hsum]
    by_cases hsg : start = goal
    · subst hsg
      simp only [find_path] at hfp
      rw [if_pos trivial] at hfp
      have hres : res = [start] := (Option.some.inj hfp).symm
      rw [hres, manhattan_self]
      norm_num
    · simp only [find_path] at hfp
      rw [if_neg hsg] at hfp
      have hsound := loop_sound Hcost (world_Hadj w) fuel _ res (init_AInv hsg) hfp
      obtain ⟨p0, hp0, hp0len⟩ := staircase
        ((start.1 - goal.1).natAbs + (start.2 - goal.2).natAbs)
        start goal rfl hs1 hs2 hs3 hs4 hg1 hg2 hg3 hg4
      have hne : res ≠ [] := by
        intro h0
        exact (hsound.1 h0) ⟨p0, hp0⟩
      obtain ⟨hvp, hmin⟩ := hsound.2 hne
      have h1 : pathCost w.toMap res ≤ pathCost w.toMap p0 := hmin p0 hp0
      have h2 : manhattan start goal ≤ pathCost w.toMap res :=
        manhattan_le_pathCost Hcost (world_Hadj w) res start goal hvp
      have hK : manhattan start goal =
          (((start.1 - goal.1).natAbs + (start.2 - goal.2).natAbs : ℕ) : ℚ) := rfl
      have hp0ne : p0 ≠ [] := by
        intro h0
        rw [h0] at hp0
        exact validPath_not_nil hp0
      have hlt : ∀ {l : List Coord}, l ≠ [] → (l.length : ℚ) = (l.tail.length : ℚ) + 1 := by
        intro l hl
        cases l with
        | nil => exact absurd rfl hl
        | cons z t =>
          simp only [List.length_cons, List.tail_cons]
          push_cast
          ring
      rw [hpc, hpc] at h1
      rw [hpc] at h2
      rw [hK] at h2
      have e1 := hlt hne
      have e2 := hlt hp0ne
      have e3 : (p0.length : ℚ) =
          (((start.1 - goal.1).natAbs + (start.2 - goal.2).natAbs : ℕ) : ℚ) + 1 := by
        rw [hp0len]
        push_cast
        ring
      rw [hK]
      push_cast at h1 h2 e1 e2 e3 ⊢
      linarith

/-- A one-cell uniform world used to witness the amended C2 statement. -/
def c2Uni : World :=
  { width := 1
    height := 1
    grid := [[⟨TerrainType.FLOOR, 1⟩]]
    resources := [] }

theorem c2Uni_cost : ∀ c : Coord, (c2Uni.toMap).get_cost c = 1 := by
  intro c
  show c2Uni.get_cost c.1 c.2 = 1
  exact world_get_cost_one (by
    intro r hr t ht
    fin_cases hr
    fin_cases ht
    norm_num) c.1 c.2

theorem C2_witness :
    (∃ fuel res, find_path c2Uni.toMap ((0 : ℤ), (0 : ℤ)) ((0 : ℤ), (0 : ℤ)) fuel =
        some res ∧ res ≠ []) ∧
    ((∀ c, (c2Uni.toMap).get_cost c = 1) →
      ∃ fuel res, find_path c2Uni.toMap ((0 : ℤ), (0 : ℤ)) ((0 : ℤ), (0 : ℤ)) fuel =
        some res ∧ (res.length : ℚ) = manhattan ((0 : ℤ), (0 : ℤ)) ((0 : ℤ), (0 : ℤ)) + 1) :=
  C2_amended_world_paths c2Uni ((0 : ℤ), (0 : ℤ)) ((0 : ℤ), (0 : ℤ))
    (fun c => le_of_eq (c2Uni_cost c).symm) (le_refl 0) (by show (0 : ℤ) < 1; norm_num)
    (le_refl 0) (by show (0 : ℤ) < 1; norm_num) (le_refl 0) (by show (0 : ℤ) < 1; norm_num)
    (le_refl 0) (by show (0 : ℤ) < 1; norm_num)

/-- The 3 by 3 world whose center cell is walkable but enclosed by wall
cells on all four sides. -/
def c2World : World :=
  { width := 3
    height := 3
    grid := [[⟨TerrainType.FLOOR, 1⟩, ⟨TerrainType.WALL, 99⟩, ⟨TerrainType.FLOOR, 1⟩],
      [⟨TerrainType.WALL, 99⟩, ⟨TerrainType.FLOOR, 1⟩, ⟨TerrainType.WALL, 99⟩],
      [⟨TerrainType.FLOOR, 1⟩, ⟨TerrainType.WALL, 99⟩, ⟨TerrainType.FLOOR, 1⟩]]
    resources := [] }

theorem c2World_cost : ∀ c : Coord, 1 ≤ (c2World.toMap).get_cost c := by
  intro c
  show 1 ≤ c2World.get_cost c.1 c.2
  exact world_get_cost_ge_one (by
    intro r hr t ht
    fin_cases hr <;> fin_cases ht <;> norm_num) c.1 c.2

/-- C2 counterexample: in c2World the goal cell (1,1) is walkable but every
one of its grid neighbors is a wall, so it is unreachable through walkable
cells; the claim then demands the empty sequence, yet AStar.find_path
finishes with a NON-empty path, because World.get_neighbors never consults
walkability and the search happily routes through wall cells at cost 99. -/
theorem C2_counterexample_enclosed_goal_nonempty_path :
    World.is_walkable c2World 1 1 = true ∧
    World.is_walkable c2World 0 0 = true ∧
    (∀ n ∈ (c2World.toMap).get_neighbors ((1 : ℤ), (1 : ℤ)),
      World.is_walkable c2World n.1 n.2 = false) ∧
    ∃ fuel res, find_path c2World.toMap ((0 : ℤ), (0 : ℤ)) ((1 : ℤ), (1 : ℤ)) fuel =
      some res ∧ res ≠ [] := by
  refine ⟨?_, ?_, ?_, ?_⟩
  · decide
  · decide
  · decide
  · exact world_find_path_nonempty c2World_cost (le_refl 0) (by show (0 : ℤ) < 3; norm_num)
      (le_refl 0) (by show (0 : ℤ) < 3; norm_num) (by show (0 : ℤ) ≤ 1; norm_num)
      (by show (1 : ℤ) < 3; norm_num) (by show (0 : ℤ) ≤ 1; norm_num)
      (by show (1 : ℤ) < 3; norm_num)

end GameProof
